import Mathlib

/-!
Verification development for the Spideriment web crawler.

Strings of the Python source are modelled as `List Char` (`Str`), so that all
operations are executable and decidable.  Each Python function used by the
claims is translated into a Lean definition of the same (camel-cased) name;
Python `re` substitutions and `str` methods are modelled directly on the
character list.  Machine integers do not overflow in the modelled code paths
(all lengths are small), so `Nat`/`Int` are used; the `content_snippet_quality`
float only ever flows through `max`/`min` comparisons and is modelled as `ℚ`.
-/

set_option maxRecDepth 10000

abbrev Str := List Char

/-- Model of Python `\s` for the ASCII range (the characters stripped by
`str.strip()` and matched by the precompiled `\s+` regexes of the source). -/
def pyIsSpace (c : Char) : Bool :=
  c = ' ' || c = '\t' || c = '\n' || c = '\r' || c = '\x0b' || c = '\x0c'

/-- Python `str.lstrip` with an arbitrary character predicate. -/
def pyLstripP (p : Char → Bool) (l : Str) : Str := l.dropWhile p

/-- Python `str.rstrip` with an arbitrary character predicate. -/
def pyRstripP (p : Char → Bool) (l : Str) : Str := (l.reverse.dropWhile p).reverse

/-- Python `str.strip` with an arbitrary character predicate. -/
def pyStripP (p : Char → Bool) (l : Str) : Str := pyRstripP p (pyLstripP p l)

/-- Python `str.strip()` (no arguments: strips whitespace). -/
def pyStrip (l : Str) : Str := pyStripP pyIsSpace l

/-- Python `str.lower()` restricted to ASCII (the sources only compare ASCII). -/
def pyLower (l : Str) : Str := l.map Char.toLower

/-- Python `str.startswith`. -/
def pyStartsWith (pre l : Str) : Bool := l.take pre.length = pre

/-- Python `str.endswith`. -/
def pyEndsWith (suf l : Str) : Bool := l.drop (l.length - suf.length) = suf && suf.length ≤ l.length

/-- Membership of a character (Python `c in s` / `s.count(c) != 0`). -/
def pyContainsChar (c : Char) (l : Str) : Bool := l.contains c

instance {e a : Type} [DecidableEq e] [DecidableEq a] : DecidableEq (Except e a) := fun x y =>
  match x, y with
  | .error u, .error v =>
    if h : u = v then .isTrue (by rw [h]) else .isFalse (by intro hc; injection hc; contradiction)
  | .ok u, .ok v =>
    if h : u = v then .isTrue (by rw [h]) else .isFalse (by intro hc; injection hc; contradiction)
  | .error _, .ok _ => .isFalse (by intro hc; exact Except.noConfusion hc)
  | .ok _, .error _ => .isFalse (by intro hc; exact Except.noConfusion hc)

/- ------------------------------------------------------------------
   Settings.py — the constants used by the modelled components.
   ------------------------------------------------------------------ -/

def Settings.URL_MAX_LENGTH : Nat := 1000
def Settings.PAGE_TITLE_MAX_LENGTH : Nat := 250
def Settings.PAGE_HTML_HEADING_MAX_LENGTH : Nat := 75
def Settings.PAGE_HTML_HEADING_MAX_LEVEL : Nat := 4
def Settings.PAGE_MAX_HTML_HEADINGS_PER_LEVEL : Nat := 5
def Settings.PAGE_DESCRIPTION_MAX_LENGTH : Nat := 300
def Settings.PAGE_KEYWORDS_MAX_LENGTH : Nat := 100
def Settings.PAGE_AUTHOR_MAX_LENGTH : Nat := 50
def Settings.PAGE_CONTENT_SNIPPET_MAX_LENGTH : Nat := 2250
def Settings.PAGE_IMAGE_ALTS_MAX_LENGTH : Nat := 125
def Settings.PAGE_LINK_TEXTS_MAX_LENGTH : Nat := 225
def Settings.PAGE_MAX_CRAWLED_LINKS_PER_WEBPAGE : Nat := 100
def Settings.MAX_ROBOTS_CACHE_ENTRIES : Nat := 60000
def Settings.CRAWLER_THREADS : Nat := 15
def Settings.CRAWL_THREAD_BATCH_SIZE : Nat := 250
def Settings.CRAWL_MOBILE_PAGES : Bool := false

/- ------------------------------------------------------------------
   CrawledPage.py
   ------------------------------------------------------------------ -/

def CrawledPage.LANGUAGE_IDENTIFIER_MAX_LENGTH : Nat := 10

/-- Accumulator-based model of `re.sub(r'\s+', " ", s)`: the flag records
whether the previous character was part of a whitespace run. -/
def CrawledPage.unifyAux : Bool → Str → Str
  | _, [] => []
  | prevWs, c :: rest =>
    if pyIsSpace c then
      if prevWs then CrawledPage.unifyAux true rest
      else ' ' :: CrawledPage.unifyAux true rest
    else c :: CrawledPage.unifyAux false rest

/-- `CrawledPage._unify_whitespace`: `re.sub(r'\s+', " ", s)`. -/
def CrawledPage.unifyWhitespace (s : Str) : Str := CrawledPage.unifyAux false s

/-- `CrawledPage._clean_whitespace`: `re.sub(r'\s+', "", s)`, i.e. removal of
every whitespace character. -/
def CrawledPage.cleanWhitespace (s : Str) : Str := s.filter (fun c => !pyIsSpace c)

/-- The normalization applied to `title`, `description`, `author`,
`content_snippet`, `image_alts`, `link_texts` and heading entries:
`self._unify_whitespace(x.strip())[0:max].strip()`. -/
def CrawledPage.normStripTrunc (maxLen : Nat) (s : Str) : Str :=
  pyStrip ((CrawledPage.unifyWhitespace (pyStrip s)).take maxLen)

/-- The normalization applied to `keywords`:
`self._unify_whitespace(x)[0:max]` (note: no strip). -/
def CrawledPage.normKeywords (s : Str) : Str :=
  (CrawledPage.unifyWhitespace s).take Settings.PAGE_KEYWORDS_MAX_LENGTH

/-- `CrawledPage._unify_whitespace_and_shorten_html_headings`: keeps the first
`PAGE_HTML_HEADING_MAX_LEVEL` collections and the first
`PAGE_MAX_HTML_HEADINGS_PER_LEVEL` headings of each, each heading normalized
like a title (dicts are modelled as insertion-ordered association lists). -/
def CrawledPage.normHeadings (hs : List (Str × List Str)) : List (Str × List Str) :=
  (hs.take Settings.PAGE_HTML_HEADING_MAX_LEVEL).map fun kc =>
    (kc.1, (kc.2.take Settings.PAGE_MAX_HTML_HEADINGS_PER_LEVEL).map
      (CrawledPage.normStripTrunc Settings.PAGE_HTML_HEADING_MAX_LENGTH))

structure CrawledPage where
  originalUrl : Str
  finalUrl : Str
  wasRedirected : Bool
  crawlTimestamp : Int
  language : Str
  title : Str
  headings : List (Str × List Str)
  description : Str
  keywords : Str
  author : Str
  contentSnippet : Str
  contentSnippetQuality : ℚ
  imageAlts : Str
  linkTexts : Str
  totalLinksCount : Int
deriving Repr, DecidableEq

/-- The distinct `CrawledPageException` raise sites of
`CrawledPage._verify_crawled_page`. -/
inductive CrawledPageErr where
  | emptyTitle
  | noContent
  | languageTooLong
deriving Repr, DecidableEq

/-- `CrawledPage._verify_crawled_page`, as a check on the populated record. -/
def CrawledPage.verifyCrawledPage (p : CrawledPage) : Except CrawledPageErr CrawledPage :=
  if p.title = [] then .error .emptyTitle
  else if p.contentSnippet = [] then .error .noContent
  else if p.language.length > CrawledPage.LANGUAGE_IDENTIFIER_MAX_LENGTH then
    .error .languageTooLong
  else .ok p

/-- `CrawledPage.__init__`: populates every field exactly as the constructor
does, then runs `_verify_crawled_page`. -/
def mkCrawledPage (originalUrl finalUrl : Str) (crawlTimestamp : Int)
    (language title : Str) (headings : List (Str × List Str))
    (description keywords author contentSnippet : Str)
    (contentSnippetQuality : ℚ) (imageAlts linkTexts : Str)
    (totalLinksCount : Int) : Except CrawledPageErr CrawledPage :=
  CrawledPage.verifyCrawledPage
    { originalUrl := originalUrl
      finalUrl := finalUrl
      wasRedirected := originalUrl ≠ finalUrl
      crawlTimestamp := crawlTimestamp
      language := CrawledPage.cleanWhitespace language
      title := CrawledPage.normStripTrunc Settings.PAGE_TITLE_MAX_LENGTH title
      headings := CrawledPage.normHeadings headings
      description := CrawledPage.normStripTrunc Settings.PAGE_DESCRIPTION_MAX_LENGTH description
      keywords := CrawledPage.normKeywords keywords
      author := CrawledPage.normStripTrunc Settings.PAGE_AUTHOR_MAX_LENGTH author
      contentSnippet := CrawledPage.normStripTrunc Settings.PAGE_CONTENT_SNIPPET_MAX_LENGTH contentSnippet
      contentSnippetQuality := max 0 (min 1 contentSnippetQuality)
      imageAlts := CrawledPage.normStripTrunc Settings.PAGE_IMAGE_ALTS_MAX_LENGTH imageAlts
      linkTexts := CrawledPage.normStripTrunc Settings.PAGE_LINK_TEXTS_MAX_LENGTH linkTexts
      totalLinksCount := totalLinksCount }

example : (mkCrawledPage [] [] 0 [] [ 't'] [] [] [] [] [ 'c'] 2 [] [] 0).isOk = true := by decide

example : (mkCrawledPage [] [] 0 [] [] [] [] [] [] [ 'c'] 2 [] [] 0).isOk = false := by decide

/- ------------------------------------------------------------------
   Whitespace-shape properties of the stored fields.
   ------------------------------------------------------------------ -/

/-- Two adjacent characters are never both whitespace. -/
def noWsPair (a b : Char) : Prop := ¬(pyIsSpace a = true ∧ pyIsSpace b = true)

instance : DecidableRel noWsPair := fun a b => by unfold noWsPair; infer_instance

/-- Every run of whitespace in `l` has length one ("collapsed to a single
space" in the spec's wording). -/
def wsCollapsed (l : Str) : Prop := l.Chain' noWsPair

/-- No leading and no trailing whitespace. -/
def noEdgeWs (l : Str) : Bool :=
  (match l.head? with | some c => !pyIsSpace c | none => true) &&
  (match l.getLast? with | some c => !pyIsSpace c | none => true)

lemma unifyAux_head_true (l : Str) :
    ∀ c, (CrawledPage.unifyAux true l).head? = some c → pyIsSpace c = false := by
  induction l with
  | nil => intro c h; simp [CrawledPage.unifyAux] at h
  | cons x xs ih =>
    intro c h
    by_cases hx : pyIsSpace x
    · simp [CrawledPage.unifyAux, hx] at h
      exact ih c h
    · simp [CrawledPage.unifyAux, hx] at h
      rw [h] at hx
      simpa using hx

lemma unifyAux_collapsed (l : Str) : ∀ b, wsCollapsed (CrawledPage.unifyAux b l) := by
  induction l with
  | nil => intro b; simp [CrawledPage.unifyAux, wsCollapsed]
  | cons x xs ih =>
    intro b
    by_cases hx : pyIsSpace x
    · cases b with
      | true => simpa [CrawledPage.unifyAux, hx] using ih true
      | false =>
        have : CrawledPage.unifyAux false (x :: xs) = ' ' :: CrawledPage.unifyAux true xs := by
          simp [CrawledPage.unifyAux, hx]
        rw [wsCollapsed, this, List.chain'_cons']
        refine ⟨?_, ih true⟩
        intro y hy
        have hns := unifyAux_head_true xs y hy
        intro hcon
        rw [hns] at hcon
        exact absurd hcon.2 (by simp)
    · have : CrawledPage.unifyAux b (x :: xs) = x :: CrawledPage.unifyAux false xs := by
        simp [CrawledPage.unifyAux, hx]
      rw [wsCollapsed, this, List.chain'_cons']
      refine ⟨?_, ih false⟩
      intro y _
      intro hcon
      exact absurd hcon.1 (by simpa using hx)

lemma unifyWhitespace_collapsed (l : Str) : wsCollapsed (CrawledPage.unifyWhitespace l) :=
  unifyAux_collapsed l false

lemma pyStripP_isMidOf (p : Char → Bool) (l : Str) : pyStripP p l <:+: l := by
  have h1 : pyLstripP p l <:+ l := List.dropWhile_suffix p
  have h2 : pyRstripP p (pyLstripP p l) <+: pyLstripP p l := by
    rw [pyRstripP]
    have := List.dropWhile_suffix (l := (pyLstripP p l).reverse) p
    rw [← List.reverse_prefix] at this
    simpa using this
  exact (h2.isInfix).trans h1.isInfix

lemma wsCollapsed_of_mid {l l₁ : Str} (h : wsCollapsed l) (hm : l₁ <:+: l) : wsCollapsed l₁ :=
  List.Chain'.infix h hm

lemma wsCollapsed_take {l : Str} (h : wsCollapsed l) (n : Nat) : wsCollapsed (l.take n) :=
  List.Chain'.take h n

lemma head_dropWhile_not (p : Char → Bool) (l : Str) :
    ∀ c, (l.dropWhile p).head? = some c → p c = false := by
  induction l with
  | nil => intro c h; simp at h
  | cons x xs ih =>
    intro c h
    by_cases hx : p x
    · rw [List.dropWhile_cons_of_pos hx] at h
      exact ih c h
    · rw [List.dropWhile_cons_of_neg hx] at h
      simp at h
      rw [h] at hx
      simpa using hx

lemma head?_of_isPre {l₁ l₂ : Str} (h : l₁ <+: l₂) (hne : l₁ ≠ []) : l₂.head? = l₁.head? := by
  rcases h with ⟨t, ht⟩
  cases l₁ with
  | nil => exact absurd rfl hne
  | cons a as => rw [← ht]; rfl

lemma noEdgeWs_pyStrip (l : Str) : noEdgeWs (pyStrip l) = true := by
  rw [noEdgeWs, Bool.and_eq_true]
  constructor
  · cases hh : (pyStrip l).head? with
    | none => rfl
    | some c =>
      have hpre : pyStrip l <+: pyLstripP pyIsSpace l := by
        rw [pyStrip, pyStripP, pyRstripP]
        have := List.dropWhile_suffix (l := (pyLstripP pyIsSpace l).reverse) pyIsSpace
        rw [← List.reverse_prefix] at this
        simpa using this
      have hne : pyStrip l ≠ [] := by
        intro hcon; rw [hcon] at hh; simp at hh
      have := head?_of_isPre hpre hne
      rw [hh] at this
      have hns := head_dropWhile_not pyIsSpace l c (by simpa [pyLstripP] using this)
      simp [hns]
  · cases hh : (pyStrip l).getLast? with
    | none => rfl
    | some c =>
      rw [pyStrip, pyStripP, pyRstripP, List.getLast?_reverse] at hh
      have hns := head_dropWhile_not pyIsSpace (pyLstripP pyIsSpace l).reverse c hh
      simp [hns]

lemma length_pyStripP_le (p : Char → Bool) (l : Str) : (pyStripP p l).length ≤ l.length :=
  List.IsInfix.length_le (pyStripP_isMidOf p l)

lemma normStripTrunc_shape (n : Nat) (s : Str) :
    wsCollapsed (CrawledPage.normStripTrunc n s) ∧
    noEdgeWs (CrawledPage.normStripTrunc n s) = true ∧
    (CrawledPage.normStripTrunc n s).length ≤ n := by
  refine ⟨?_, noEdgeWs_pyStrip _, ?_⟩
  · exact wsCollapsed_of_mid (wsCollapsed_take (unifyWhitespace_collapsed _) n)
      (pyStripP_isMidOf _ _)
  · calc (CrawledPage.normStripTrunc n s).length
        ≤ ((CrawledPage.unifyWhitespace (pyStrip s)).take n).length :=
          length_pyStripP_le _ _
      _ ≤ n := List.length_take_le _ _

lemma normKeywords_shape (s : Str) :
    wsCollapsed (CrawledPage.normKeywords s) ∧
    (CrawledPage.normKeywords s).length ≤ Settings.PAGE_KEYWORDS_MAX_LENGTH :=
  ⟨wsCollapsed_take (unifyWhitespace_collapsed _) _, List.length_take_le _ _⟩

lemma cleanWhitespace_no_ws (s : Str) :
    ∀ c ∈ CrawledPage.cleanWhitespace s, pyIsSpace c = false := by
  intro c hc
  have := List.of_mem_filter hc
  simpa using this

lemma verifyCrawledPage_ok_iff (p q : CrawledPage) :
    CrawledPage.verifyCrawledPage p = .ok q ↔
    (q = p ∧ p.title ≠ [] ∧ p.contentSnippet ≠ [] ∧
     p.language.length ≤ CrawledPage.LANGUAGE_IDENTIFIER_MAX_LENGTH) := by
  rw [CrawledPage.verifyCrawledPage]
  split
  · rename_i h1
    constructor
    · intro hc; exact Except.noConfusion hc
    · rintro ⟨-, ht, -, -⟩; exact absurd h1 ht
  · split
    · rename_i h2
      constructor
      · intro hc; exact Except.noConfusion hc
      · rintro ⟨-, -, hc, -⟩; exact absurd h2 hc
    · split
      · rename_i h3
        constructor
        · intro hc; exact Except.noConfusion hc
        · rintro ⟨-, -, -, hl⟩; omega
      · rename_i h1 h2 h3
        constructor
        · intro hc
          injection hc with hc
          exact ⟨hc.symm, h1, h2, Nat.not_lt.mp h3⟩
        · rintro ⟨hq, -, -, -⟩; rw [hq]

lemma verifyCrawledPage_error_iff (p : CrawledPage) :
    (∃ e, CrawledPage.verifyCrawledPage p = .error e) ↔
    (p.title = [] ∨ p.contentSnippet = [] ∨
     p.language.length > CrawledPage.LANGUAGE_IDENTIFIER_MAX_LENGTH) := by
  rw [CrawledPage.verifyCrawledPage]
  split
  · simp_all
  · split
    · simp_all
    · split
      · simp_all
      · simp_all

/-- C1.  A successfully constructed `CrawledPage` has a non-empty title, a
non-empty content snippet and a snippet quality in `[0, 1]`; and the
constructor fails with a `CrawledPageException` whenever the normalized title
is empty, the normalized content snippet is empty, or the language tag with
all whitespace removed is longer than 10 characters. -/
theorem crawledPage_invariants_c1
    (ou fu : Str) (ts : Int) (lang title : Str) (hs : List (Str × List Str))
    (desc kw auth cs : Str) (q : ℚ) (ia lt : Str) (tlc : Int) :
    (∀ p, mkCrawledPage ou fu ts lang title hs desc kw auth cs q ia lt tlc = .ok p →
      p.title ≠ [] ∧ p.contentSnippet ≠ [] ∧
      0 ≤ p.contentSnippetQuality ∧ p.contentSnippetQuality ≤ 1) ∧
    ((CrawledPage.normStripTrunc Settings.PAGE_TITLE_MAX_LENGTH title = [] ∨
      CrawledPage.normStripTrunc Settings.PAGE_CONTENT_SNIPPET_MAX_LENGTH cs = [] ∨
      (CrawledPage.cleanWhitespace lang).length > CrawledPage.LANGUAGE_IDENTIFIER_MAX_LENGTH) →
      ∃ e, mkCrawledPage ou fu ts lang title hs desc kw auth cs q ia lt tlc = .error e) := by
  constructor
  · intro p hp
    rw [mkCrawledPage, verifyCrawledPage_ok_iff] at hp
    obtain ⟨hq, ht, hc, _⟩ := hp
    subst hq
    refine ⟨ht, hc, le_max_left 0 _, max_le (by norm_num) (min_le_left 1 q)⟩
  · intro h
    rw [mkCrawledPage, verifyCrawledPage_error_iff]
    exact h

/-- Witness for C1 at concrete inputs: an empty title makes construction fail. -/
theorem crawledPage_invariants_c1_witness :
    ∃ e, mkCrawledPage [] [] 0 [] [] [] [] [] [] ([ 'c']) 1 [] [] 0 = .error e :=
  (crawledPage_invariants_c1 [] [] 0 [] [] [] [] [] [] ([ 'c']) 1 [] [] 0).2
    (Or.inl (by decide))

/-- C10.  An out-of-range `content_snippet_quality` never by itself causes a
construction error (success is independent of the quality argument), and the
stored quality is the input clamped into `[0, 1]`. -/
theorem crawledPage_quality_clamped_c10
    (ou fu : Str) (ts : Int) (lang title : Str) (hs : List (Str × List Str))
    (desc kw auth cs : Str) (q q' : ℚ) (ia lt : Str) (tlc : Int) :
    ((mkCrawledPage ou fu ts lang title hs desc kw auth cs q ia lt tlc).isOk ↔
     (mkCrawledPage ou fu ts lang title hs desc kw auth cs q' ia lt tlc).isOk) ∧
    (∀ p, mkCrawledPage ou fu ts lang title hs desc kw auth cs q ia lt tlc = .ok p →
      p.contentSnippetQuality = max 0 (min 1 q)) := by
  constructor
  · rw [mkCrawledPage, mkCrawledPage, CrawledPage.verifyCrawledPage, CrawledPage.verifyCrawledPage]
    split
    · exact Iff.rfl
    · split
      · exact Iff.rfl
      · split
        · exact Iff.rfl
        · exact Iff.rfl
  · intro p hp
    rw [mkCrawledPage, verifyCrawledPage_ok_iff] at hp
    rw [hp.1]

/-- Witness for C10 at a concrete out-of-range quality input. -/
theorem crawledPage_quality_clamped_c10_witness :
    ∃ p, mkCrawledPage [] [] 0 [] ([ 't']) [] [] [] [] ([ 'c']) 7 [] [] 0 = .ok p ∧
      p.contentSnippetQuality = max 0 (min 1 7) := by
  have h := crawledPage_quality_clamped_c10 [] [] 0 [] ([ 't']) [] [] [] [] ([ 'c']) 7 1 [] [] 0
  have hok : (mkCrawledPage [] [] 0 [] ([ 't']) [] [] [] [] ([ 'c']) 7 [] [] 0).isOk = true := by
    decide
  cases hm : mkCrawledPage [] [] 0 [] ([ 't']) [] [] [] [] ([ 'c']) 7 [] [] 0 with
  | error e => rw [hm] at hok; simp [Except.isOk, Except.toBool] at hok
  | ok p => exact ⟨p, rfl, h.2 p hm⟩

/-- Counterexample to C4 as stated.  The claim asserts that every stored text
field has no leading or trailing whitespace, but the `keywords` field is
assigned `self._unify_whitespace(keywords)[0:PAGE_KEYWORDS_MAX_LENGTH]`
without any strip, so the keywords input " k " is stored as " k " on an
otherwise successfully constructed record. -/
theorem crawledPage_c4_counterexample :
    (mkCrawledPage [] [] 0 [] ([ 't']) [] [] ([ ' ', 'k', ' ']) [] ([ 'c']) 1 [] [] 0).toOption.map
      (fun p => (p.keywords, noEdgeWs p.keywords)) = some ([ ' ', 'k', ' '], false) := by
  decide

/-- C4 (amended).  On every successfully constructed record, every text field
is whitespace-collapsed and truncated to its configured maximum; all of them
except `keywords` are additionally stripped of leading/trailing whitespace
(`keywords` is only unified and truncated); `language` has all whitespace
removed and, via the validity check, length at most 10.  In particular the
stored title never exceeds PAGE_TITLE_MAX_LENGTH characters. -/
theorem crawledPage_field_normalization_c4
    (ou fu : Str) (ts : Int) (lang title : Str) (hs : List (Str × List Str))
    (desc kw auth cs : Str) (q : ℚ) (ia lt : Str) (tlc : Int) :
    ∀ p, mkCrawledPage ou fu ts lang title hs desc kw auth cs q ia lt tlc = .ok p →
      (wsCollapsed p.title ∧ noEdgeWs p.title = true ∧
        p.title.length ≤ Settings.PAGE_TITLE_MAX_LENGTH) ∧
      (wsCollapsed p.description ∧ noEdgeWs p.description = true ∧
        p.description.length ≤ Settings.PAGE_DESCRIPTION_MAX_LENGTH) ∧
      (wsCollapsed p.author ∧ noEdgeWs p.author = true ∧
        p.author.length ≤ Settings.PAGE_AUTHOR_MAX_LENGTH) ∧
      (wsCollapsed p.contentSnippet ∧ noEdgeWs p.contentSnippet = true ∧
        p.contentSnippet.length ≤ Settings.PAGE_CONTENT_SNIPPET_MAX_LENGTH) ∧
      (wsCollapsed p.imageAlts ∧ noEdgeWs p.imageAlts = true ∧
        p.imageAlts.length ≤ Settings.PAGE_IMAGE_ALTS_MAX_LENGTH) ∧
      (wsCollapsed p.linkTexts ∧ noEdgeWs p.linkTexts = true ∧
        p.linkTexts.length ≤ Settings.PAGE_LINK_TEXTS_MAX_LENGTH) ∧
      (wsCollapsed p.keywords ∧ p.keywords.length ≤ Settings.PAGE_KEYWORDS_MAX_LENGTH) ∧
      ((∀ c ∈ p.language, pyIsSpace c = false) ∧
        p.language.length ≤ CrawledPage.LANGUAGE_IDENTIFIER_MAX_LENGTH) ∧
      (∀ kc ∈ p.headings, ∀ h ∈ kc.2, wsCollapsed h ∧ noEdgeWs h = true ∧
        h.length ≤ Settings.PAGE_HTML_HEADING_MAX_LENGTH) := by
  intro p hp
  rw [mkCrawledPage, verifyCrawledPage_ok_iff] at hp
  obtain ⟨hq, -, -, hlang⟩ := hp
  subst hq
  refine ⟨normStripTrunc_shape _ _, normStripTrunc_shape _ _, normStripTrunc_shape _ _,
    normStripTrunc_shape _ _, normStripTrunc_shape _ _, normStripTrunc_shape _ _,
    normKeywords_shape _, ⟨cleanWhitespace_no_ws _, hlang⟩, ?_⟩
  intro kc hkc h hh
  simp only [CrawledPage.normHeadings, List.mem_map] at hkc
  obtain ⟨kc0, -, hkc0⟩ := hkc
  rw [← hkc0] at hh
  simp only [List.mem_map] at hh
  obtain ⟨h0, -, hh0⟩ := hh
  rw [← hh0]
  exact normStripTrunc_shape _ _

/-- Witness for C4 (amended): a title of length PAGE_TITLE_MAX_LENGTH + 1 is
stored with length at most PAGE_TITLE_MAX_LENGTH. -/
theorem crawledPage_field_normalization_c4_witness :
    ∃ p, mkCrawledPage [] [] 0 [] (List.replicate 251 'a') [] [] [] [] ([ 'c']) 1 [] [] 0 = .ok p ∧
      p.title.length ≤ Settings.PAGE_TITLE_MAX_LENGTH := by
  have hok : (mkCrawledPage [] [] 0 [] (List.replicate 251 'a') [] [] [] [] ([ 'c']) 1 [] [] 0).isOk
      = true := by decide
  cases hm : mkCrawledPage [] [] 0 [] (List.replicate 251 'a') [] [] [] [] ([ 'c']) 1 [] [] 0 with
  | error e => rw [hm] at hok; simp [Except.isOk, Except.toBool] at hok
  | ok p =>
    exact ⟨p, rfl,
      ((crawledPage_field_normalization_c4 [] [] 0 [] (List.replicate 251 'a') [] [] [] [] ([ 'c'])
        1 [] [] 0 p hm).1).2.2⟩

/- ------------------------------------------------------------------
   CrawlerThread.py — content snippet extraction.
   ------------------------------------------------------------------ -/

/-- An HTML document, abstracted exactly as `_get_content_snippet` consumes
it: the sequence of (element name, `get_text()` result) pairs that
`parsed_html.find_all` traverses in document order. -/
abbrev HtmlDoc := List (Str × Str)

/-- `parsed_html.find_all(element_name)`: the texts of the elements whose
name is among the queried names, in document order (a single-string query in
the source is the singleton list here). -/
def findAll (doc : HtmlDoc) (names : List Str) : List Str :=
  (doc.filter (fun e => names.contains e.1)).map (fun e => e.2)

/-- `CrawlerThread._CONTENT_SNIPPET_TRIES` (same order and qualities). -/
def CrawlerThread.CONTENT_SNIPPET_TRIES : List (ℚ × List Str) :=
  [ ((1.0 : ℚ), [ "p".toList ]),
    ((0.75 : ℚ), [ "b".toList, "strong".toList, "em".toList ]),
    ((0.4 : ℚ), [ "i".toList, "u".toList, "big".toList ]),
    ((0.15 : ℚ), [ "table".toList ]),
    ((0.1 : ℚ), [ "span".toList, "div".toList ]),
    ((0.05 : ℚ), [ "body".toList ]) ]

/-- The accumulation loop of `_get_content_snippet_from_html_elements`:
before each element the accumulated length is checked against
`PAGE_CONTENT_SNIPPET_MAX_LENGTH` (`break`), empty and whitespace-only texts
are skipped (`continue`), and each kept text is appended stripped, followed
by a forced space. -/
def CrawlerThread.snippetAccumGo : Str → List Str → Str
  | acc, [] => acc
  | acc, t :: ts =>
    if Settings.PAGE_CONTENT_SNIPPET_MAX_LENGTH ≤ acc.length then acc
    else if t = [] then CrawlerThread.snippetAccumGo acc ts
    else
      let t2 := pyStrip t
      if t2 = [] then CrawlerThread.snippetAccumGo acc ts
      else CrawlerThread.snippetAccumGo (acc ++ t2 ++ [ ' ']) ts

/-- `CrawlerThread._get_content_snippet_from_html_elements` (the final
`.strip()` removes the forced trailing space). -/
def CrawlerThread.getContentSnippetFromHtmlElements (doc : HtmlDoc) (names : List Str) : Str :=
  pyStrip (CrawlerThread.snippetAccumGo [] (findAll doc names))

/-- The loop of `CrawlerThread._get_content_snippet` over the tries table. -/
def CrawlerThread.getContentSnippetGo (doc : HtmlDoc) : List (ℚ × List Str) → Str × ℚ
  | [] => ([], 0)
  | t :: rest =>
    let cs := CrawlerThread.getContentSnippetFromHtmlElements doc t.2
    if cs ≠ [] then (cs, t.1) else CrawlerThread.getContentSnippetGo doc rest

/-- `CrawlerThread._get_content_snippet`. -/
def CrawlerThread.getContentSnippet (doc : HtmlDoc) : Str × ℚ :=
  CrawlerThread.getContentSnippetGo doc CrawlerThread.CONTENT_SNIPPET_TRIES

/-- Modelled from the spec: the selection rule of §4.4 step 12 stated
directly — the result is the accumulation and quality of the first selector
group with a non-empty accumulation, and `("", 0)` when every group's
accumulation is empty. -/
def CrawlerThread.specSnippetLadder (doc : HtmlDoc) : Str × ℚ :=
  match CrawlerThread.CONTENT_SNIPPET_TRIES.find?
      (fun t => CrawlerThread.getContentSnippetFromHtmlElements doc t.2 ≠ []) with
  | some t => (CrawlerThread.getContentSnippetFromHtmlElements doc t.2, t.1)
  | none => ([], 0)

lemma getContentSnippetGo_eq_find (doc : HtmlDoc) (ts : List (ℚ × List Str)) :
    CrawlerThread.getContentSnippetGo doc ts =
      (match ts.find?
          (fun t => CrawlerThread.getContentSnippetFromHtmlElements doc t.2 ≠ []) with
       | some t => (CrawlerThread.getContentSnippetFromHtmlElements doc t.2, t.1)
       | none => ([], 0)) := by
  induction ts with
  | nil => rfl
  | cons hd tl ih =>
    rw [CrawlerThread.getContentSnippetGo]
    by_cases h : CrawlerThread.getContentSnippetFromHtmlElements doc hd.2 = []
    · rw [if_neg (by simp [h]), List.find?_cons_of_neg _ (by simp [h])]
      exact ih
    · rw [if_pos h, List.find?_cons_of_pos _ (by simpa using h)]

/-- C5.  The content-snippet extraction tries the selector groups in the
fixed order p (1.00), b|strong|em (0.75), i|u|big (0.40), table (0.15),
span|div (0.10), body (0.05); for each group it accumulates stripped
non-empty element texts separated by spaces, stopping once the accumulated
length reaches PAGE_CONTENT_SNIPPET_MAX_LENGTH (this is
`getContentSnippetFromHtmlElements`), and returns the first group's
non-empty accumulation with that group's quality, falling back to
`("", 0)` when every group is empty; a document whose only text sits
directly in `<body>` receives quality 0.05. -/
theorem contentSnippet_ladder_c5 :
    (CrawlerThread.CONTENT_SNIPPET_TRIES =
      [ ((1.0 : ℚ), [ "p".toList ]),
        ((0.75 : ℚ), [ "b".toList, "strong".toList, "em".toList ]),
        ((0.4 : ℚ), [ "i".toList, "u".toList, "big".toList ]),
        ((0.15 : ℚ), [ "table".toList ]),
        ((0.1 : ℚ), [ "span".toList, "div".toList ]),
        ((0.05 : ℚ), [ "body".toList ]) ]) ∧
    (∀ doc : HtmlDoc, CrawlerThread.getContentSnippet doc =
      CrawlerThread.specSnippetLadder doc) ∧
    CrawlerThread.getContentSnippet [( "body".toList, "Hello".toList)] =
      ("Hello".toList, (0.05 : ℚ)) := by
  refine ⟨rfl, ?_, by rfl⟩
  intro doc
  rw [CrawlerThread.getContentSnippet, CrawlerThread.specSnippetLadder,
    getContentSnippetGo_eq_find]

/- ------------------------------------------------------------------
   RobotsWrapper.py
   ------------------------------------------------------------------ -/

/-- The per-host robots cache, a Python dict modelled as an insertion-ordered
association list with unique keys.  The value type is `Option P`, where `P`
abstracts a parsed `robotparser.RobotFileParser` policy; a `none` value is
the negative marker cached when the robots file failed to fetch. -/
abbrev RobotsCache (P : Type) := List (Str × Option P)

/-- Dict lookup (`key in cache` / `cache[key]`). -/
def robotsCacheLookup {P : Type} (st : RobotsCache P) (k : Str) : Option (Option P) :=
  match st with
  | [] => none
  | kv :: rest => if kv.1 = k then some kv.2 else robotsCacheLookup rest k

def robotsCacheKeys {P : Type} (st : RobotsCache P) : List Str := st.map (fun kv => kv.1)

/-- Dict assignment `cache[key] = v`: update in place, else append. -/
def robotsCacheAssign {P : Type} (st : RobotsCache P) (k : Str) (v : Option P) : RobotsCache P :=
  match st with
  | [] => [(k, v)]
  | kv :: rest => if kv.1 = k then (k, v) :: rest else kv :: robotsCacheAssign rest k v

/-- `RobotsWrapper._add_parser_to_robots_cache`: the assignment happens only
when the current cache size is strictly below MAX_ROBOTS_CACHE_ENTRIES
(the capacity test and the assignment form one critical section). -/
def RobotsWrapper.addToRobotsCache {P : Type} (st : RobotsCache P) (k : Str) (v : Option P) :
    RobotsCache P :=
  if st.length < Settings.MAX_ROBOTS_CACHE_ENTRIES then robotsCacheAssign st k v else st

/-- `RobotsWrapper._get_robots_file_parser` together with the inlined
`_fetch_robots_file`.  The network outcome is the oracle `fetchResult`
(`some p` = fetched and parsed policy, `none` = `RequestsWrapperException`).
Returns the looked-up/fetched policy, the new cache, and whether a network
fetch was performed. -/
def RobotsWrapper.getRobotsFilePolicy {P : Type} (st : RobotsCache P) (cacheKey : Str)
    (cacheOnly : Bool) (fetchResult : Option P) : Option P × RobotsCache P × Bool :=
  match robotsCacheLookup st cacheKey with
  | some v => (v, st, false)
  | none =>
    if cacheOnly then (none, st, false)
    else
      match fetchResult with
      | none => (none, RobotsWrapper.addToRobotsCache st cacheKey none, true)
      | some p => (some p, RobotsWrapper.addToRobotsCache st cacheKey (some p), true)

/-- `RobotsWrapper.can_be_crawled`.  `alwaysAllowCanonicals` models
`Settings.ROBOTS_TXT_ALWAYS_ALLOW_URLS` through the canonical URLs of its
wrappers (the comparison in `_is_url_in_always_allow_list` is canonical-URL
equality); `canFetch` abstracts `RobotFileParser.can_fetch` for the
configured user agent. -/
def RobotsWrapper.canBeCrawled {P : Type} (alwaysAllowCanonicals : List Str)
    (canFetch : P → Str → Bool) (selfCanonicalUrl selfUrl cacheKey : Str)
    (st : RobotsCache P) (cacheOnly : Bool) (fetchResult : Option P) :
    Bool × RobotsCache P × Bool :=
  if alwaysAllowCanonicals.contains selfCanonicalUrl then (true, st, false)
  else
    match RobotsWrapper.getRobotsFilePolicy st cacheKey cacheOnly fetchResult with
    | (none, st2, f) => (true, st2, f)
    | (some p, st2, f) => (canFetch p selfUrl, st2, f)

/-- C6.  The robots admission decision returns true unconditionally for URLs
whose canonical form is in the always-allow list; returns true when the
host's cache entry is the negative marker; and with `cache_only = true` and
a cache miss returns true without fetching (no fetch performed, cache
unchanged). -/
theorem robots_admission_c6 {P : Type} (alwaysAllowCanonicals : List Str)
    (canFetch : P → Str → Bool) (curl url cacheKey : Str) (st : RobotsCache P)
    (cacheOnly : Bool) (fetchResult : Option P) :
    (alwaysAllowCanonicals.contains curl = true →
      RobotsWrapper.canBeCrawled alwaysAllowCanonicals canFetch curl url cacheKey st
        cacheOnly fetchResult = (true, st, false)) ∧
    (robotsCacheLookup st cacheKey = some none →
      (RobotsWrapper.canBeCrawled alwaysAllowCanonicals canFetch curl url cacheKey st
        cacheOnly fetchResult).1 = true) ∧
    (cacheOnly = true → robotsCacheLookup st cacheKey = none →
      RobotsWrapper.canBeCrawled alwaysAllowCanonicals canFetch curl url cacheKey st
        cacheOnly fetchResult = (true, st, false)) := by
  refine ⟨?_, ?_, ?_⟩
  · intro h
    rw [RobotsWrapper.canBeCrawled, if_pos h]
  · intro h
    rw [RobotsWrapper.canBeCrawled]
    split
    · rfl
    · rw [RobotsWrapper.getRobotsFilePolicy.eq_def, h]
  · intro hco h
    rw [RobotsWrapper.canBeCrawled]
    split
    · rfl
    · rw [RobotsWrapper.getRobotsFilePolicy.eq_def, h, hco]
      rfl

/-- Witness for C6: a host cached with the negative marker is admitted. -/
theorem robots_admission_c6_witness :
    (RobotsWrapper.canBeCrawled (P := Unit) [] (fun _ _ => false) ([ 'u']) ([ 'u']) ([ 'h'])
      [(( [ 'h']), none)] false none).1 = true :=
  (robots_admission_c6 [] (fun _ _ => false) ([ 'u']) ([ 'u']) ([ 'h'])
    [(( [ 'h']), none)] false none).2.1 (by decide)

lemma robotsCacheAssign_length_le {P : Type} (st : RobotsCache P) (k : Str) (v : Option P) :
    (robotsCacheAssign st k v).length ≤ st.length + 1 := by
  induction st with
  | nil => simp [robotsCacheAssign]
  | cons kv rest ih =>
    rw [robotsCacheAssign]
    split
    · simp
    · simpa using Nat.succ_le_succ ih

lemma robotsCacheAssign_keys_mono {P : Type} (st : RobotsCache P) (k : Str) (v : Option P)
    (k0 : Str) (h : k0 ∈ robotsCacheKeys st) : k0 ∈ robotsCacheKeys (robotsCacheAssign st k v) := by
  induction st with
  | nil => simp [robotsCacheKeys] at h
  | cons kv rest ih =>
    rw [robotsCacheAssign]
    split
    · rename_i heq
      simp only [robotsCacheKeys, List.map_cons, List.mem_cons] at h ⊢
      rcases h with h | h
      · exact Or.inl (by rw [← heq, h])
      · exact Or.inr h
    · simp only [robotsCacheKeys, List.map_cons, List.mem_cons] at h ⊢
      rcases h with h | h
      · exact Or.inl h
      · exact Or.inr (ih h)

/-- C7.  The robots cache never exceeds MAX_ROBOTS_CACHE_ENTRIES: an
insertion is performed only below capacity and is a no-op at capacity, keys
are never removed, and any sequence of insertions starting from the empty
cache stays within the bound. -/
theorem robots_cache_bounded_c7 (P : Type) :
    (∀ (st : RobotsCache P) (k : Str) (v : Option P),
      st.length ≤ Settings.MAX_ROBOTS_CACHE_ENTRIES →
      (RobotsWrapper.addToRobotsCache st k v).length ≤ Settings.MAX_ROBOTS_CACHE_ENTRIES) ∧
    (∀ (st : RobotsCache P) (k : Str) (v : Option P),
      ¬ st.length < Settings.MAX_ROBOTS_CACHE_ENTRIES →
      RobotsWrapper.addToRobotsCache st k v = st) ∧
    (∀ (st : RobotsCache P) (k : Str) (v : Option P) (k0 : Str),
      k0 ∈ robotsCacheKeys st → k0 ∈ robotsCacheKeys (RobotsWrapper.addToRobotsCache st k v)) ∧
    (∀ ops : List (Str × Option P),
      (ops.foldl (fun s kv => RobotsWrapper.addToRobotsCache s kv.1 kv.2)
        ([] : RobotsCache P)).length ≤ Settings.MAX_ROBOTS_CACHE_ENTRIES) := by
  have hadd : ∀ (st : RobotsCache P) (k : Str) (v : Option P),
      st.length ≤ Settings.MAX_ROBOTS_CACHE_ENTRIES →
      (RobotsWrapper.addToRobotsCache st k v).length ≤ Settings.MAX_ROBOTS_CACHE_ENTRIES := by
    intro st k v hle
    rw [RobotsWrapper.addToRobotsCache]
    split
    · rename_i hlt
      calc (robotsCacheAssign st k v).length ≤ st.length + 1 := robotsCacheAssign_length_le st k v
        _ ≤ Settings.MAX_ROBOTS_CACHE_ENTRIES := Nat.succ_le_of_lt hlt
    · exact hle
  refine ⟨hadd, ?_, ?_, ?_⟩
  · intro st k v hge
    rw [RobotsWrapper.addToRobotsCache, if_neg hge]
  · intro st k v k0 h
    rw [RobotsWrapper.addToRobotsCache]
    split
    · exact robotsCacheAssign_keys_mono st k v k0 h
    · exact h
  · intro ops
    have hgen : ∀ (ops : List (Str × Option P)) (st : RobotsCache P),
        st.length ≤ Settings.MAX_ROBOTS_CACHE_ENTRIES →
        (ops.foldl (fun s kv => RobotsWrapper.addToRobotsCache s kv.1 kv.2) st).length ≤
          Settings.MAX_ROBOTS_CACHE_ENTRIES := by
      intro ops
      induction ops with
      | nil => intro st h; simpa using h
      | cons op rest ih =>
        intro st h
        rw [List.foldl_cons]
        exact ih _ (hadd st op.1 op.2 h)
    exact hgen ops [] (by simp [Settings.MAX_ROBOTS_CACHE_ENTRIES])

/-- Witness for C7: one insertion into the empty cache stays within the
capacity bound. -/
theorem robots_cache_bounded_c7_witness :
    (RobotsWrapper.addToRobotsCache ([] : RobotsCache Unit) [ 'h'] none).length ≤
      Settings.MAX_ROBOTS_CACHE_ENTRIES :=
  (robots_cache_bounded_c7 Unit).1 [] ([ 'h']) none (by decide)

/- ------------------------------------------------------------------
   CrawlerBatchCoordinator.py — slicing the crawl queue into worker batches.
   ------------------------------------------------------------------ -/

/-- `CrawlerBatchCoordinator._get_crawl_queue_for_thread`:
`urls_to_fetch = self._h.crawl_queue[0:CRAWL_THREAD_BATCH_SIZE]` followed by
`del self._h.crawl_queue[0:CRAWL_THREAD_BATCH_SIZE]` — returns the slice and
the remaining queue. -/
def CrawlerBatchCoordinator.getCrawlQueueForThread (q : List Str) : List Str × List Str :=
  (q.take Settings.CRAWL_THREAD_BATCH_SIZE, q.drop Settings.CRAWL_THREAD_BATCH_SIZE)

/-- The `for thread_id in range(1, CRAWLER_THREADS + 1)` loop of
`_crawl_batch`, generic in the remaining thread budget: take a slice off the
front of the (already pruned) queue, stop (`break`) on an empty slice,
otherwise start a worker on it and continue. -/
def CrawlerBatchCoordinator.sliceLoop : Nat → List Str → List (List Str) × List Str
  | 0, q => ([], q)
  | t + 1, q =>
    let s := CrawlerBatchCoordinator.getCrawlQueueForThread q
    if s.1 = [] then ([], s.2)
    else
      let r := CrawlerBatchCoordinator.sliceLoop t s.2
      (s.1 :: r.1, r.2)

/-- The batch slicing of `_crawl_batch`: the per-worker queue slices and the
remaining queue. -/
def CrawlerBatchCoordinator.crawlBatchSlices (q : List Str) : List (List Str) × List Str :=
  CrawlerBatchCoordinator.sliceLoop Settings.CRAWLER_THREADS q

/-- `if len(threads) == 0: raise StopCrawlingException(...)`. -/
def CrawlerBatchCoordinator.raisesStopCrawling (q : List Str) : Bool :=
  (CrawlerBatchCoordinator.crawlBatchSlices q).1.length = 0

lemma sliceLoop_spec (t : Nat) : ∀ q : List Str,
    ((CrawlerBatchCoordinator.sliceLoop t q).1.flatten ++
      (CrawlerBatchCoordinator.sliceLoop t q).2 = q) ∧
    ((CrawlerBatchCoordinator.sliceLoop t q).1.length ≤ t) ∧
    (∀ s ∈ (CrawlerBatchCoordinator.sliceLoop t q).1,
      s ≠ [] ∧ s.length ≤ Settings.CRAWL_THREAD_BATCH_SIZE) ∧
    (∀ s ∈ (CrawlerBatchCoordinator.sliceLoop t q).1.dropLast,
      s.length = Settings.CRAWL_THREAD_BATCH_SIZE) ∧
    ((CrawlerBatchCoordinator.sliceLoop t q).1.length < t →
      (CrawlerBatchCoordinator.sliceLoop t q).2 = []) ∧
    ((CrawlerBatchCoordinator.sliceLoop t q).1 = [] ↔ (t = 0 ∨ q = [])) := by
  induction t with
  | zero =>
    intro q
    refine ⟨rfl, le_refl _, by simp [CrawlerBatchCoordinator.sliceLoop],
      by simp [CrawlerBatchCoordinator.sliceLoop], by simp,
      by simp [CrawlerBatchCoordinator.sliceLoop]⟩
  | succ t ih =>
    intro q
    by_cases hq : q.take Settings.CRAWL_THREAD_BATCH_SIZE = []
    · have hqe : q = [] := by
        rcases List.take_eq_nil_iff.mp hq with h | h
        · simp [Settings.CRAWL_THREAD_BATCH_SIZE] at h
        · exact h
      have hred : CrawlerBatchCoordinator.sliceLoop (t + 1) q =
          ([], q.drop Settings.CRAWL_THREAD_BATCH_SIZE) := by
        rw [CrawlerBatchCoordinator.sliceLoop]
        simp only [CrawlerBatchCoordinator.getCrawlQueueForThread, hq, if_pos]
      rw [hred]
      subst hqe
      refine ⟨by simp, by simp, by simp, by simp, by simp, by simp⟩
    · have hred : CrawlerBatchCoordinator.sliceLoop (t + 1) q =
          (q.take Settings.CRAWL_THREAD_BATCH_SIZE ::
            (CrawlerBatchCoordinator.sliceLoop t (q.drop Settings.CRAWL_THREAD_BATCH_SIZE)).1,
           (CrawlerBatchCoordinator.sliceLoop t (q.drop Settings.CRAWL_THREAD_BATCH_SIZE)).2) := by
        rw [CrawlerBatchCoordinator.sliceLoop]
        simp only [CrawlerBatchCoordinator.getCrawlQueueForThread, hq, if_neg, ite_false]
      obtain ⟨ih1, ih2, ih3, ih4, ih5, ih6⟩ := ih (q.drop Settings.CRAWL_THREAD_BATCH_SIZE)
      rw [hred]
      refine ⟨?_, ?_, ?_, ?_, ?_, ?_⟩
      · simp only [List.flatten_cons, List.append_assoc, ih1, List.take_append_drop]
      · simpa using Nat.succ_le_succ ih2
      · intro s hs
        rcases List.mem_cons.mp hs with h | h
        · subst h
          exact ⟨hq, List.length_take_le _ _⟩
        · exact ih3 s h
      · intro s hs
        by_cases hr : (CrawlerBatchCoordinator.sliceLoop t
            (q.drop Settings.CRAWL_THREAD_BATCH_SIZE)).1 = []
        · rw [hr] at hs
          simp at hs
        · rw [List.dropLast_cons_of_ne_nil hr] at hs
          rcases List.mem_cons.mp hs with h | h
          · subst h
            have hdrop : q.drop Settings.CRAWL_THREAD_BATCH_SIZE ≠ [] := by
              intro hcon
              rcases ih6.mpr (Or.inr hcon) with h6
              exact hr h6
            have hlen : Settings.CRAWL_THREAD_BATCH_SIZE ≤ q.length := by
              by_contra hcon
              push_neg at hcon
              exact hdrop (List.drop_eq_nil_of_le (Nat.le_of_lt hcon))
            rw [List.length_take]
            omega
          · exact ih4 s h
      · intro hlt
        apply ih5
        simp only [List.length_cons] at hlt
        omega
      · constructor
        · intro hcon
          exact absurd hcon (by simp)
        · rintro (h | h)
          · exact absurd h (by omega)
          · exact absurd (by rw [h]; rfl) hq

/-- C9.  In every batch the coordinator takes pairwise-disjoint slices in
order from the front of the pruned crawl queue (their concatenation followed
by the remaining queue is the queue itself), each slice non-empty and of
exactly CRAWL_THREAD_BATCH_SIZE URLs except possibly the last, starting at
most CRAWLER_THREADS workers, stopping as soon as the queue is exhausted
(fewer slices than the thread budget only when nothing remains); it raises
StopCrawlingException iff zero workers were started, i.e. iff the pruned
queue was empty. -/
theorem coordinator_slicing_c9 (q : List Str) :
    ((CrawlerBatchCoordinator.crawlBatchSlices q).1.flatten ++
      (CrawlerBatchCoordinator.crawlBatchSlices q).2 = q) ∧
    ((CrawlerBatchCoordinator.crawlBatchSlices q).1.length ≤ Settings.CRAWLER_THREADS) ∧
    (∀ s ∈ (CrawlerBatchCoordinator.crawlBatchSlices q).1,
      s ≠ [] ∧ s.length ≤ Settings.CRAWL_THREAD_BATCH_SIZE) ∧
    (∀ s ∈ (CrawlerBatchCoordinator.crawlBatchSlices q).1.dropLast,
      s.length = Settings.CRAWL_THREAD_BATCH_SIZE) ∧
    ((CrawlerBatchCoordinator.crawlBatchSlices q).1.length < Settings.CRAWLER_THREADS →
      (CrawlerBatchCoordinator.crawlBatchSlices q).2 = []) ∧
    (CrawlerBatchCoordinator.raisesStopCrawling q = true ↔ q = []) := by
  obtain ⟨h1, h2, h3, h4, h5, h6⟩ := sliceLoop_spec Settings.CRAWLER_THREADS q
  refine ⟨h1, h2, h3, h4, h5, ?_⟩
  simp only [CrawlerBatchCoordinator.raisesStopCrawling, decide_eq_true_eq]
  constructor
  · intro h
    rcases h6.mp (List.length_eq_zero.mp h) with h0 | h0
    · simp [Settings.CRAWLER_THREADS] at h0
    · exact h0
  · intro h
    rw [List.length_eq_zero]
    exact h6.mpr (Or.inr h)

/-- Witness for C9: a one-URL queue starts fewer workers than the budget and
leaves nothing in the queue. -/
theorem coordinator_slicing_c9_witness :
    (CrawlerBatchCoordinator.crawlBatchSlices [ "u".toList ]).2 = [] :=
  (coordinator_slicing_c9 [ "u".toList ]).2.2.2.2.1 (by decide)

/- ------------------------------------------------------------------
   CrawlerThread.py — the per-URL worker loop (`_crawl`).
   ------------------------------------------------------------------ -/

/-- The observable part of a `URLWrapper` used by `_crawl`. -/
structure UrlW where
  url : Str
  canonicalUrl : Str
deriving Repr, DecidableEq

/-- The three output accumulators of a `CrawlerThread`. -/
structure WorkerSt where
  newCrawledUrls : List Str
  newCrawlQueue : List Str
  crawledPagesData : List CrawledPage
deriving Repr, DecidableEq

/-- The fresh accumulators of `CrawlerThread.__init__`. -/
def CrawlerThread.initialWorkerSt : WorkerSt := ⟨[], [], []⟩

/-- One outcome of `_crawl_single_url` for one URL: a crawled page, the
fetched file's final URL, and the discovered links — or one of the caught
exceptions (`GenericCrawlerException`, `RequestsWrapperException`,
`CrawledPageException`), abstracted as `E`. -/
abbrev CrawlOutcome (E : Type) := Except E (CrawledPage × UrlW × List Str)

/-- The body of the `for i, url in enumerate(self._crawl_queue, 1)` loop of
`CrawlerThread._crawl`.  `wrapO url` is the outcome of `URLWrapper(url)` and
`singleO ou` the outcome of `_crawl_single_url(original_url)`.  On success
the discovered links and the page are appended and both canonical URLs are
recorded; on a failure after successful wrapping only the original canonical
URL is recorded (`final_url` is only assigned after `_crawl_single_url`
returns, so it is never known on failure); on a wrapping failure nothing is
recorded. -/
def CrawlerThread.crawlStep {E : Type} (wrapO : Str → Except E UrlW)
    (singleO : UrlW → CrawlOutcome E) (st : WorkerSt) (url : Str) : WorkerSt :=
  match wrapO url with
  | .error _ => st
  | .ok ou =>
    match singleO ou with
    | .error _ =>
      { st with newCrawledUrls := st.newCrawledUrls ++ [ou.canonicalUrl] }
    | .ok (page, fin, links) =>
      { newCrawlQueue := st.newCrawlQueue ++ links
        crawledPagesData := st.crawledPagesData ++ [page]
        newCrawledUrls := st.newCrawledUrls ++ [ou.canonicalUrl, fin.canonicalUrl] }

/-- `CrawlerThread._crawl` over the worker's queue slice. -/
def CrawlerThread.crawl {E : Type} (wrapO : Str → Except E UrlW)
    (singleO : UrlW → CrawlOutcome E) (queue : List Str) : WorkerSt :=
  queue.foldl (CrawlerThread.crawlStep wrapO singleO) CrawlerThread.initialWorkerSt

lemma crawlStep_mono {E : Type} (wrapO : Str → Except E UrlW)
    (singleO : UrlW → CrawlOutcome E) (st : WorkerSt) (url : Str) :
    ∃ t, (CrawlerThread.crawlStep wrapO singleO st url).newCrawledUrls =
      st.newCrawledUrls ++ t := by
  rw [CrawlerThread.crawlStep]
  cases hw : wrapO url with
  | error e => exact ⟨[], by simp⟩
  | ok ou =>
    cases hs : singleO ou with
    | error e => exact ⟨[ou.canonicalUrl], by simp [hs]⟩
    | ok r =>
      obtain ⟨page, fin, links⟩ := r
      exact ⟨[ou.canonicalUrl, fin.canonicalUrl], by simp [hs]⟩

lemma crawlFold_mono {E : Type} (wrapO : Str → Except E UrlW)
    (singleO : UrlW → CrawlOutcome E) (urls : List Str) :
    ∀ st : WorkerSt, ∃ t,
      (urls.foldl (CrawlerThread.crawlStep wrapO singleO) st).newCrawledUrls =
        st.newCrawledUrls ++ t := by
  induction urls with
  | nil => intro st; exact ⟨[], by simp⟩
  | cons u rest ih =>
    intro st
    rw [List.foldl_cons]
    obtain ⟨t1, ht1⟩ := crawlStep_mono wrapO singleO st u
    obtain ⟨t2, ht2⟩ := ih (CrawlerThread.crawlStep wrapO singleO st u)
    exact ⟨t1 ++ t2, by rw [ht2, ht1, List.append_assoc]⟩

/-- C8.  For every URL in a worker's slice whose extraction fails (any stage
of `_crawl_single_url` raises), no page record is produced at that step, and
the worker's `new_crawled_urls` still ends up containing the original
canonical URL whenever URL wrapping succeeded (the failed URL is recorded so
it is not retried); the final canonical URL is additionally recorded exactly
in the success case. -/
theorem worker_failure_recording_c8 {E : Type} (wrapO : Str → Except E UrlW)
    (singleO : UrlW → CrawlOutcome E) (pre post : List Str) (url : Str) :
    (∀ e ou, wrapO url = .ok ou → singleO ou = .error e →
      (CrawlerThread.crawlStep wrapO singleO
          (pre.foldl (CrawlerThread.crawlStep wrapO singleO) CrawlerThread.initialWorkerSt)
          url).crawledPagesData =
        (pre.foldl (CrawlerThread.crawlStep wrapO singleO)
          CrawlerThread.initialWorkerSt).crawledPagesData ∧
      ou.canonicalUrl ∈
        (CrawlerThread.crawl wrapO singleO (pre ++ url :: post)).newCrawledUrls) ∧
    (∀ page fin links ou, wrapO url = .ok ou → singleO ou = .ok (page, fin, links) →
      (CrawlerThread.crawlStep wrapO singleO
          (pre.foldl (CrawlerThread.crawlStep wrapO singleO) CrawlerThread.initialWorkerSt)
          url).newCrawledUrls =
        (pre.foldl (CrawlerThread.crawlStep wrapO singleO)
            CrawlerThread.initialWorkerSt).newCrawledUrls ++
          [ou.canonicalUrl, fin.canonicalUrl]) := by
  constructor
  · intro e ou hw hs
    have hstep : CrawlerThread.crawlStep wrapO singleO
        (pre.foldl (CrawlerThread.crawlStep wrapO singleO) CrawlerThread.initialWorkerSt) url =
        { pre.foldl (CrawlerThread.crawlStep wrapO singleO) CrawlerThread.initialWorkerSt with
          newCrawledUrls :=
            (pre.foldl (CrawlerThread.crawlStep wrapO singleO)
              CrawlerThread.initialWorkerSt).newCrawledUrls ++ [ou.canonicalUrl] } := by
      simp [CrawlerThread.crawlStep, hw, hs]
    refine ⟨by rw [hstep], ?_⟩
    rw [CrawlerThread.crawl, List.foldl_append, List.foldl_cons]
    obtain ⟨t, ht⟩ := crawlFold_mono wrapO singleO post
      (CrawlerThread.crawlStep wrapO singleO
        (pre.foldl (CrawlerThread.crawlStep wrapO singleO) CrawlerThread.initialWorkerSt) url)
    rw [ht, hstep]
    simp
  · intro page fin links ou hw hs
    simp [CrawlerThread.crawlStep, hw, hs]

/-- Witness for C8: with a crawl oracle that always fails, the attempted
URL's canonical form is still recorded in `new_crawled_urls`. -/
theorem worker_failure_recording_c8_witness :
    "u".toList ∈ (CrawlerThread.crawl (E := Unit) (fun s => .ok ⟨s, s⟩)
      (fun _ => .error ()) [ "u".toList ]).newCrawledUrls :=
  ((worker_failure_recording_c8 (fun s => Except.ok ⟨s, s⟩) (fun _ => Except.error ()) [] []
    ( "u".toList)).1 () ⟨ "u".toList, "u".toList⟩ rfl rfl).2

/- ------------------------------------------------------------------
   URLWrapper.py — plus the parts of `urllib.parse` it relies on
   (urlparse/urlsplit, parse_qsl, urlencode, quote_plus, unquote).
   ------------------------------------------------------------------ -/

def isAsciiAlpha (c : Char) : Bool :=
  ('a' ≤ c && c ≤ 'z') || ('A' ≤ c && c ≤ 'Z')

def isAsciiDigit (c : Char) : Bool := '0' ≤ c && c ≤ '9'

def isLowerAlpha (c : Char) : Bool := 'a' ≤ c && c ≤ 'z'

/-- urllib's `_ALWAYS_SAFE` character set: ASCII letters, digits, `_.-~`. -/
def isAlwaysSafe (c : Char) : Bool :=
  isAsciiAlpha c || isAsciiDigit c || c = '_' || c = '.' || c = '-' || c = '~'

def hexDigitVal (c : Char) : Option Nat :=
  if '0' ≤ c && c ≤ '9' then some (c.toNat - 48)
  else if 'a' ≤ c && c ≤ 'f' then some (c.toNat - 87)
  else if 'A' ≤ c && c ≤ 'F' then some (c.toNat - 55)
  else none

def hexDigitUpper (n : Nat) : Char :=
  if n < 10 then Char.ofNat (48 + n) else Char.ofNat (55 + n)

/-- The UTF-8 encoding of one character, as its byte values. -/
def utf8EncodeChar (c : Char) : List Nat :=
  let n := c.toNat
  if n < 0x80 then [n]
  else if n < 0x800 then [0xC0 + n / 64, 0x80 + n % 64]
  else if n < 0x10000 then [0xE0 + n / 4096, 0x80 + n / 64 % 64, 0x80 + n % 64]
  else [0xF0 + n / 262144, 0x80 + n / 4096 % 64, 0x80 + n / 64 % 64, 0x80 + n % 64]

def isUtf8Cont (b : Nat) : Bool := 0x80 ≤ b && b < 0xC0

/-- U+FFFD, the replacement character of the `errors='replace'` handler. -/
def replacementChar : Char := Char.ofNat 0xFFFD

/-- Decoding of one UTF-8 scalar whose first byte is `b0`: the decoded
character (or U+FFFD on malformed input, consuming only `b0`) and the
remaining bytes.  Overlong encodings, surrogates and out-of-range values are
rejected. -/
def utf8DecodeStep (b0 : Nat) (rest : List Nat) : Char × List Nat :=
  if b0 < 0x80 then (Char.ofNat b0, rest)
  else if 0xC0 ≤ b0 && b0 < 0xE0 then
    match rest with
    | b1 :: r1 =>
      if isUtf8Cont b1 then
        let v := (b0 - 0xC0) * 64 + (b1 - 0x80)
        if 0x80 ≤ v then (Char.ofNat v, r1) else (replacementChar, b1 :: r1)
      else (replacementChar, b1 :: r1)
    | [] => (replacementChar, [])
  else if 0xE0 ≤ b0 && b0 < 0xF0 then
    match rest with
    | b1 :: b2 :: r2 =>
      if isUtf8Cont b1 && isUtf8Cont b2 then
        let v := (b0 - 0xE0) * 4096 + (b1 - 0x80) * 64 + (b2 - 0x80)
        if 0x800 ≤ v && !(0xD800 ≤ v && v < 0xE000) then (Char.ofNat v, r2)
        else (replacementChar, b1 :: b2 :: r2)
      else (replacementChar, b1 :: b2 :: r2)
    | short => (replacementChar, short)
  else if 0xF0 ≤ b0 && b0 < 0xF8 then
    match rest with
    | b1 :: b2 :: b3 :: r3 =>
      if isUtf8Cont b1 && isUtf8Cont b2 && isUtf8Cont b3 then
        let v := (b0 - 0xF0) * 262144 + (b1 - 0x80) * 4096 + (b2 - 0x80) * 64 + (b3 - 0x80)
        if 0x10000 ≤ v && v < 0x110000 then (Char.ofNat v, r3)
        else (replacementChar, b1 :: b2 :: b3 :: r3)
      else (replacementChar, b1 :: b2 :: b3 :: r3)
    | short => (replacementChar, short)
  else (replacementChar, rest)

lemma utf8DecodeStep_length (b0 : Nat) (rest : List Nat) :
    (utf8DecodeStep b0 rest).2.length ≤ rest.length := by
  rw [utf8DecodeStep.eq_def]
  split
  · simp
  · split
    · match rest with
      | [] => simp
      | b1 :: r1 =>
        dsimp only
        split
        · split <;> simp <;> omega
        · simp
    · split
      · match rest with
        | [] => simp
        | [b1] => simp
        | b1 :: b2 :: r2 =>
          dsimp only
          split
          · split <;> simp <;> omega
          · simp
      · split
        · match rest with
          | [] => simp
          | [b1] => simp
          | [b1, b2] => simp
          | b1 :: b2 :: b3 :: r3 =>
            dsimp only
            split
            · split <;> simp <;> omega
            · simp
        · simp

/-- The decoding loop, structurally recursive on a fuel that bounds the
input length (each step consumes at least the first byte, so a fuel equal to
the length is always enough; the zero-fuel case is unreachable then). -/
def utf8DecodeLoop : Nat → List Nat → List Char
  | _, [] => []
  | 0, _ :: _ => []
  | fuel + 1, b0 :: rest =>
    (utf8DecodeStep b0 rest).1 :: utf8DecodeLoop fuel (utf8DecodeStep b0 rest).2

/-- UTF-8 decoding with replacement of malformed input (the `'replace'`
error handler; the maximal-subpart details of CPython's handler are
approximated bytewise, which agrees on every valid sequence). -/
def utf8DecodeReplace (l : List Nat) : List Char := utf8DecodeLoop l.length l

lemma utf8DecodeLoop_fuel : ∀ (f1 f2 : Nat) (l : List Nat), l.length ≤ f1 → l.length ≤ f2 →
    utf8DecodeLoop f1 l = utf8DecodeLoop f2 l := by
  intro f1
  induction f1 with
  | zero =>
    intro f2 l h1 h2
    match l with
    | [] => cases f2 <;> rfl
    | b :: bs => simp at h1
  | succ f1 ih =>
    intro f2 l h1 h2
    match l with
    | [] => cases f2 <;> rfl
    | b0 :: rest =>
      match f2 with
      | 0 => simp at h2
      | g + 1 =>
        rw [utf8DecodeLoop, utf8DecodeLoop]
        have hs := utf8DecodeStep_length b0 rest
        simp at h1 h2
        rw [ih g (utf8DecodeStep b0 rest).2 (by omega) (by omega)]

lemma utf8DecodeReplace_cons (b0 : Nat) (rest : List Nat) :
    utf8DecodeReplace (b0 :: rest) =
      (utf8DecodeStep b0 rest).1 :: utf8DecodeReplace (utf8DecodeStep b0 rest).2 := by
  rw [utf8DecodeReplace, utf8DecodeReplace]
  rw [show (b0 :: rest).length = rest.length + 1 from rfl, utf8DecodeLoop]
  have hs := utf8DecodeStep_length b0 rest
  rw [utf8DecodeLoop_fuel rest.length (utf8DecodeStep b0 rest).2.length
    (utf8DecodeStep b0 rest).2 hs (le_refl _)]

/-- `urllib.parse.quote_plus` with `safe=''`: a space becomes `+`, an
always-safe character passes through, any other character is
percent-encoded bytewise from its UTF-8 encoding, in uppercase hex. -/
def quotePlus (s : Str) : Str :=
  s.flatMap fun c =>
    if c = ' ' then [ '+']
    else if isAlwaysSafe c then [c]
    else (utf8EncodeChar c).flatMap fun b =>
      [ '%', hexDigitUpper (b / 16), hexDigitUpper (b % 16)]

/-- Join with a single-character separator (for `'&'.join`-style assembly). -/
def joinSep (c : Char) : List Str → Str
  | [] => []
  | [x] => x
  | x :: xs => x ++ c :: joinSep c xs

/-- `urllib.parse.urlencode` on a list of (key, value) string pairs with the
default `quote_via=quote_plus`. -/
def urlencode (pairs : List (Str × Str)) : Str :=
  joinSep '&' (pairs.map fun kv => quotePlus kv.1 ++ '=' :: quotePlus kv.2)

/-- The byte for a `%`-escape: the two characters after the `%`, when both
are hex digits (`unquote_to_bytes` leaves the `%` literal otherwise). -/
def pctDecodeByte (l : Str) : Option Nat :=
  match l with
  | h1 :: h2 :: _ =>
    match hexDigitVal h1, hexDigitVal h2 with
    | some a, some b => some (16 * a + b)
    | _, _ => none
  | _ => none

/-- Percent-decoding of a maximal ASCII run (the byte-level loop of
`urllib.parse.unquote_to_bytes`): returns the decoded byte values and the
remainder, which is empty or starts with a non-ASCII character.  A `%`
followed by two hex digits becomes that byte (consuming them via
`drop 2`); otherwise the `%` stays a literal byte. -/
def pctRunLoop : Nat → Str → List Nat × Str
  | _, [] => ([], [])
  | 0, l => ([], l)
  | fuel + 1, c :: rest =>
    if 0x80 ≤ c.toNat then ([], c :: rest)
    else if c = '%' then
      match pctDecodeByte rest with
      | some b =>
        let p := pctRunLoop fuel (rest.drop 2)
        (b :: p.1, p.2)
      | none =>
        let p := pctRunLoop fuel rest
        (0x25 :: p.1, p.2)
    else
      let p := pctRunLoop fuel rest
      (c.toNat :: p.1, p.2)

def pctRun (l : Str) : List Nat × Str := pctRunLoop l.length l

lemma pctRunLoop_fuel : ∀ (f1 f2 : Nat) (l : Str), l.length ≤ f1 → l.length ≤ f2 →
    pctRunLoop f1 l = pctRunLoop f2 l := by
  intro f1
  induction f1 with
  | zero =>
    intro f2 l h1 h2
    match l with
    | [] => cases f2 <;> rfl
    | c :: cs => simp at h1
  | succ f1 ih =>
    intro f2 l h1 h2
    match l with
    | [] => cases f2 <;> rfl
    | c :: rest =>
      match f2 with
      | 0 => simp at h2
      | g + 1 =>
        rw [pctRunLoop, pctRunLoop]
        simp at h1 h2
        have hd := List.length_drop 2 rest
        by_cases ha : 0x80 ≤ c.toNat
        · rw [if_pos ha, if_pos ha]
        · rw [if_neg ha, if_neg ha]
          by_cases hp : c = '%'
          · rw [if_pos hp, if_pos hp]
            cases htrip : pctDecodeByte rest with
            | some b => simp only [ih g (rest.drop 2) (by omega) (by omega)]
            | none => simp only [ih g rest (by omega) (by omega)]
          · rw [if_neg hp, if_neg hp]
            simp only [ih g rest (by omega) (by omega)]

lemma pctRun_nil : pctRun [] = ([], []) := rfl

lemma pctRun_nonascii (c : Char) (rest : Str) (h : 0x80 ≤ c.toNat) :
    pctRun (c :: rest) = ([], c :: rest) := by
  rw [pctRun, show (c :: rest).length = rest.length + 1 from rfl, pctRunLoop, if_pos h]

lemma pctRun_pct_some (rest : Str) (b : Nat) (h : pctDecodeByte rest = some b) :
    pctRun ('%' :: rest) =
      (b :: (pctRun (rest.drop 2)).1, (pctRun (rest.drop 2)).2) := by
  rw [pctRun, pctRun, show ('%' :: rest).length = rest.length + 1 from rfl, pctRunLoop,
    if_neg (by decide), if_pos rfl, h]
  have hd := List.length_drop 2 rest
  rw [pctRunLoop_fuel rest.length (rest.drop 2).length (rest.drop 2) (by omega) (le_refl _)]

lemma pctRun_pct_none (rest : Str) (h : pctDecodeByte rest = none) :
    pctRun ('%' :: rest) = (0x25 :: (pctRun rest).1, (pctRun rest).2) := by
  rw [pctRun, pctRun, show ('%' :: rest).length = rest.length + 1 from rfl, pctRunLoop,
    if_neg (by decide), if_pos rfl, h]

lemma pctRun_plain (c : Char) (rest : Str) (h1 : ¬ 0x80 ≤ c.toNat) (h2 : c ≠ '%') :
    pctRun (c :: rest) = (c.toNat :: (pctRun rest).1, (pctRun rest).2) := by
  rw [pctRun, pctRun, show (c :: rest).length = rest.length + 1 from rfl, pctRunLoop,
    if_neg h1, if_neg h2]

lemma pctRunLoop_snd_length_le : ∀ (f : Nat) (l : Str), (pctRunLoop f l).2.length ≤ l.length := by
  intro f
  induction f with
  | zero =>
    intro l
    match l with
    | [] => simp [pctRunLoop]
    | c :: cs => simp [pctRunLoop]
  | succ f ih =>
    intro l
    match l with
    | [] => simp [pctRunLoop]
    | c :: rest =>
      rw [pctRunLoop]
      by_cases ha : 0x80 ≤ c.toNat
      · rw [if_pos ha]
      · rw [if_neg ha]
        by_cases hp : c = '%'
        · rw [if_pos hp]
          cases htrip : pctDecodeByte rest with
          | some b =>
            have := ih (rest.drop 2)
            have hd := List.length_drop 2 rest
            simp at this ⊢
            omega
          | none =>
            have := ih rest
            simp at this ⊢
            omega
        · rw [if_neg hp]
          have := ih rest
          simp at this ⊢
          omega

lemma pctRun_snd_length_le (l : Str) : (pctRun l).2.length ≤ l.length :=
  pctRunLoop_snd_length_le l.length l

lemma pctRun_snd_lt (c : Char) (rest : Str) (h : ¬ 0x80 ≤ c.toNat) :
    (pctRun (c :: rest)).2.length < (c :: rest).length := by
  by_cases hp : c = '%'
  · subst hp
    cases htrip : pctDecodeByte rest with
    | some b =>
      rw [pctRun_pct_some rest b htrip]
      have h1 := pctRun_snd_length_le (rest.drop 2)
      have h2 := List.length_drop 2 rest
      simp at h1 ⊢
      omega
    | none =>
      rw [pctRun_pct_none rest htrip]
      have h1 := pctRun_snd_length_le rest
      simp at h1 ⊢
      omega
  · rw [pctRun_plain c rest h hp]
    have h1 := pctRun_snd_length_le rest
    simp at h1 ⊢
    omega

/-- The loop of `unquote`, structurally recursive on a fuel bounding the
input length. -/
def unquoteLoop : Nat → Str → Str
  | _, [] => []
  | 0, l => l
  | fuel + 1, c :: rest =>
    if 0x80 ≤ c.toNat then c :: unquoteLoop fuel rest
    else
      utf8DecodeReplace (pctRun (c :: rest)).1 ++ unquoteLoop fuel (pctRun (c :: rest)).2

/-- `urllib.parse.unquote` with `encoding='utf-8', errors='replace'`:
maximal ASCII runs are percent-decoded to bytes and UTF-8 decoded; non-ASCII
characters pass through unchanged. -/
def unquote (l : Str) : Str := unquoteLoop l.length l

lemma unquoteLoop_fuel : ∀ (f1 f2 : Nat) (l : Str), l.length ≤ f1 → l.length ≤ f2 →
    unquoteLoop f1 l = unquoteLoop f2 l := by
  intro f1
  induction f1 with
  | zero =>
    intro f2 l h1 h2
    match l with
    | [] => cases f2 <;> rfl
    | c :: cs => simp at h1
  | succ f1 ih =>
    intro f2 l h1 h2
    match l with
    | [] => cases f2 <;> rfl
    | c :: rest =>
      match f2 with
      | 0 => simp at h2
      | g + 1 =>
        rw [unquoteLoop, unquoteLoop]
        simp at h1 h2
        by_cases ha : 0x80 ≤ c.toNat
        · rw [if_pos ha, if_pos ha, ih g rest (by omega) (by omega)]
        · rw [if_neg ha, if_neg ha]
          have := pctRun_snd_lt c rest ha
          simp at this
          rw [ih g (pctRun (c :: rest)).2 (by omega) (by omega)]

lemma unquote_nil : unquote [] = [] := rfl

lemma unquote_nonascii (c : Char) (rest : Str) (h : 0x80 ≤ c.toNat) :
    unquote (c :: rest) = c :: unquote rest := by
  rw [unquote, unquote, show (c :: rest).length = rest.length + 1 from rfl, unquoteLoop,
    if_pos h]

lemma unquote_ascii (c : Char) (rest : Str) (h : ¬ 0x80 ≤ c.toNat) :
    unquote (c :: rest) =
      utf8DecodeReplace (pctRun (c :: rest)).1 ++ unquote (pctRun (c :: rest)).2 := by
  rw [unquote, unquote, show (c :: rest).length = rest.length + 1 from rfl, unquoteLoop,
    if_neg h]
  have := pctRun_snd_lt c rest h
  simp at this
  rw [unquoteLoop_fuel rest.length (pctRun (c :: rest)).2.length (pctRun (c :: rest)).2
    (by omega) (le_refl _)]

/-- `unquote_plus` as used by `parse_qsl`: `+` is turned into a space before
unquoting. -/
def unquotePlus (s : Str) : Str :=
  unquote (s.map fun c => if c = '+' then ' ' else c)

/-- Python `str.split(sep)` for a single-character separator (keeps empty
pieces; always returns at least one piece). -/
def splitOnChar (sep : Char) : Str → List Str
  | [] => [[]]
  | c :: rest =>
    if c = sep then [] :: splitOnChar sep rest
    else
      match splitOnChar sep rest with
      | x :: xs => (c :: x) :: xs
      | [] => [[c]]

/-- Python `str.split(sep, 1)`: `some (before, after)` at the first
occurrence, `none` when the separator is absent. -/
def splitOnce (sep : Char) : Str → Option (Str × Str)
  | [] => none
  | c :: rest =>
    if c = sep then some ([], rest)
    else
      match splitOnce sep rest with
      | some (a, b) => some (c :: a, b)
      | none => none

/-- `urllib.parse.parse_qsl` with default arguments: split on `&`, skip
empty items, skip items without `=`, skip items whose raw value is empty
(`keep_blank_values=False`), and unquote-plus names and values. -/
def parseQsl (qs : Str) : List (Str × Str) :=
  (splitOnChar '&' qs).filterMap fun nv =>
    if nv = [] then none
    else
      match splitOnce '=' nv with
      | none => none
      | some (n, v) =>
        if v = [] then none
        else some (unquotePlus n, unquotePlus v)

/- The `urllib.parse.urlsplit` / `urlparse` pipeline. -/

def schemeChars (c : Char) : Bool :=
  isAsciiAlpha c || isAsciiDigit c || c = '+' || c = '-' || c = '.'

/-- The scheme-splitting step of `urlsplit`: a valid scheme before the first
colon (first character ASCII-alpha, the rest in `scheme_chars`, the colon at
a positive index) is lowercased and removed; otherwise the URL is left
whole. -/
def splitScheme (url : Str) : Str × Str :=
  let before := url.takeWhile (fun c => c ≠ ':')
  if before.length = url.length then ([], url)
  else
    match before with
    | [] => ([], url)
    | c :: _ =>
      if isAsciiAlpha c && before.all schemeChars then
        (pyLower before, url.drop (before.length + 1))
      else ([], url)

/-- `_splitnetloc(url, 2)` on the input with the leading `//` removed: the
netloc runs until the first of `/?#`. -/
def splitNetloc (url : Str) : Str × Str :=
  (url.takeWhile (fun c => c ≠ '/' && c ≠ '?' && c ≠ '#'),
   url.dropWhile (fun c => c ≠ '/' && c ≠ '?' && c ≠ '#'))

/-- Split at the first occurrence of `sep` when present (`url.split(c, 1)`
guarded by `c in url`). -/
def splitFirst (sep : Char) (l : Str) : Str × Str :=
  match splitOnce sep l with
  | some (a, b) => (a, b)
  | none => (l, [])

structure ParseResult where
  scheme : Str
  netloc : Str
  path : Str
  params : Str
  query : Str
  fragment : Str
deriving Repr, DecidableEq

/-- The errors of `URLWrapper.__init__` and its validators, one constructor
per raise site (`parseFailed` is the caught urlsplit `ValueError`;
`invalidQueryString` is unreachable in this model because the modelled
`parse_qsl`/`urlencode` are total). -/
inductive URLWrapperErr where
  | tooLong
  | parseFailed
  | invalidQueryString
  | nullOrNewline
  | invalidScheme
  | invalidNetloc
  | hostnameFiltered
  | mobileHostname
  | pathFiltered
  | extensionFiltered
  | invalidPath
  | wikipediaMobile
  | wikipediaLanguage
deriving Repr, DecidableEq

/-- `urllib.parse.urlsplit` (fragments allowed; the bracket mismatch check
raises `ValueError`, caught by the wrapper; the NFKC netloc check only
concerns non-ASCII netlocs and is not modelled). -/
def urlsplitM (url : Str) : Except URLWrapperErr (Str × Str × Str × Str × Str) :=
  let s := splitScheme url
  let n := if s.2.take 2 = [ '/', '/'] then splitNetloc (s.2.drop 2) else ([], s.2)
  if (n.1.contains '[' && !n.1.contains ']') ||
     (n.1.contains ']' && !n.1.contains '[') then .error .parseFailed
  else
    let f := splitFirst '#' n.2
    let q := splitFirst '?' f.1
    .ok (s.1, n.1, q.1, q.2, f.2)

/-- Split at the leftmost of `c` in `l` starting no earlier than the last
occurrence of `'/'` — `_splitparams`'s `url.find(';', url.rfind('/'))`,
expressed through the decomposition at the last slash. -/
def splitAtLastSlash (l : Str) : Str × Str :=
  let afterRev := l.reverse.takeWhile (fun c => c ≠ '/')
  (l.take (l.length - afterRev.length), afterRev.reverse)

/-- `urllib.parse._splitparams`. -/
def splitparamsM (path : Str) : Str × Str :=
  if path.contains '/' then
    let s := splitAtLastSlash path
    match splitOnce ';' s.2 with
    | some (a, b) => (s.1 ++ a, b)
    | none => (path, [])
  else
    match splitOnce ';' path with
    | some (a, b) => (a, b)
    | none => (path, [])

/-- `urllib.parse.urlparse`: urlsplit plus params splitting on the last path
segment (only when the path contains `;`). -/
def urlparseM (url : Str) : Except URLWrapperErr ParseResult := do
  let (scheme, netloc, path0, query, fragment) ← urlsplitM url
  let pp := if path0.contains ';' then splitparamsM path0 else (path0, [])
  .ok { scheme := scheme, netloc := netloc, path := pp.1, params := pp.2,
        query := query, fragment := fragment }

/-- `urllib.parse.urlunsplit`. -/
def urlunsplitM (scheme netloc url query fragment : Str) : Str :=
  let url1 :=
    if netloc ≠ [] || (url ≠ [] && url.take 2 = [ '/', '/']) then
      '/' :: '/' :: (netloc ++ (if url ≠ [] && url.take 1 ≠ [ '/'] then '/' :: url else url))
    else url
  let url2 := if scheme ≠ [] then scheme ++ ':' :: url1 else url1
  let url3 := if query ≠ [] then url2 ++ '?' :: query else url2
  if fragment ≠ [] then url3 ++ '#' :: fragment else url3

/-- `ParseResult.geturl` = `urlunparse` on the six components. -/
def ParseResult.geturl (pr : ParseResult) : Str :=
  urlunsplitM pr.scheme pr.netloc
    (if pr.params ≠ [] then pr.path ++ ';' :: pr.params else pr.path)
    pr.query pr.fragment

/-- `Settings.FILTERED_FILE_EXTENSIONS` (all lowercase, as in the source). -/
def Settings.FILTERED_FILE_EXTENSIONS : List Str :=
  [ "jpg".toList, "jpeg".toList, "bmp".toList, "gif".toList, "png".toList, "tif".toList,
    "tiff".toList, "svg".toList, "heic".toList, "heif".toList, "ico".toList,
    "raw".toList, "xcf".toList, "psd".toList, "zps".toList, "cdr".toList, "mp3".toList,
    "wav".toList, "wma".toList, "flac".toList, "ogg".toList, "aac".toList,
    "m4a".toList, "mp4".toList, "avi".toList, "wmv".toList, "flv".toList, "webm".toList,
    "mkv".toList, "3gp".toList, "m4v".toList, "mov".toList, "zip".toList,
    "rar".toList, "7z".toList, "tar".toList, "gz".toList, "bz2".toList, "xz".toList,
    "z".toList, "tgz".toList, "tbz2".toList, "txz".toList, "tz".toList, "ggb".toList,
    "pdf".toList, "tex".toList, "doc".toList, "docx".toList, "docm".toList,
    "rtf".toList, "odt".toList, "xls".toList, "xlsx".toList, "xlsm".toList, "txt".toList,
    "ods".toList, "ppt".toList, "pptx".toList, "pptm".toList, "odp".toList,
    "sql".toList, "log".toList, "csv".toList, "tsv".toList, "json".toList, "iso".toList,
    "img".toList, "vmdk".toList, "qcow".toList, "qcow2".toList, "scr".toList,
    "bin".toList, "exe".toList, "vbs".toList, "app".toList, "msi".toList, "msu".toList,
    "cab".toList, "dmg".toList, "rpm".toList, "deb".toList, "pkg".toList,
    "appimage".toList, "apk".toList, "bat".toList, "cmd".toList, "sh".toList,
    "bash".toList, "dll".toList, "so".toList, "ko".toList, "ini".toList, "cfg".toList,
    "cnf".toList, "conf".toList, "cur".toList, "ani".toList, "lnk".toList,
    "sys".toList, "drv".toList, "pak".toList, "tmp".toList, "bak".toList, "dmp".toList ]

/-- The `gov\.[a-z]+$` alternative of `Settings.HOSTNAME_FILTER` (on an
already-lowercased hostname): a non-empty trailing ASCII-alpha run directly
preceded by `gov.`. -/
def Settings.hostnameFilterGovAlt (h : Str) : Bool :=
  let run := h.reverse.takeWhile isLowerAlpha
  !run.isEmpty && pyStartsWith ".vog".toList (h.reverse.drop run.length)

/-- `Settings.HOSTNAME_FILTER.search(hostname)` — the compiled, IGNORECASE
regex `\.onion$|\.mil$|\.gov$|gov\.[a-z]+$|archive\.org$|ozmovies\.com\.au$|patents\.google\.com$`
(suffix alternatives; `search` with `$`-anchored branches is a suffix
match). -/
def Settings.hostnameFilterMatches (hostname : Str) : Bool :=
  let h := pyLower hostname
  pyEndsWith ".onion".toList h || pyEndsWith ".mil".toList h || pyEndsWith ".gov".toList h ||
  Settings.hostnameFilterGovAlt h || pyEndsWith "archive.org".toList h ||
  pyEndsWith "ozmovies.com.au".toList h || pyEndsWith "patents.google.com".toList h

/-- `Settings.ALLOWED_WIKIPEDIA_LANGUAGES`. -/
def Settings.ALLOWED_WIKIPEDIA_LANGUAGES : Option (List Str) :=
  some [ "en".toList, "cs".toList ]

/-- `URLWrapper._URL_PATH_MULTISLASH_FIX_REGEX.sub('/', path)`:
`re.sub(r'/+', '/', path)` via the same run-collapsing accumulator as the
whitespace unifier. -/
def URLWrapper.collapseSlashesAux : Bool → Str → Str
  | _, [] => []
  | prev, c :: rest =>
    if c = '/' then
      if prev then URLWrapper.collapseSlashesAux true rest
      else '/' :: URLWrapper.collapseSlashesAux true rest
    else c :: URLWrapper.collapseSlashesAux false rest

def URLWrapper.collapseSlashes (s : Str) : Str := URLWrapper.collapseSlashesAux false s

/-- Python `str.strip(chars)`. -/
def pyStripChars (chars : Str) (l : Str) : Str := pyStripP (fun c => chars.contains c) l

/-- `URLWrapper._remove_useless_query_string_params`: re-encode the parsed
query, dropping every parameter whose stripped lowercase key starts with
`utm_` or equals `fbclid`, stripping kept keys and values. -/
def URLWrapper.removeUselessQueryStringParams (qs : Str) : Str :=
  urlencode ((parseQsl qs).filterMap fun kv =>
    let k := pyStrip kv.1
    if pyStartsWith "utm_".toList (pyLower k) || pyLower k = "fbclid".toList then none
    else some (k, pyStrip kv.2))

/-- `URLWrapper._canonicalize_parsed_url`. -/
def URLWrapper.canonicalizeParsedUrl (pr : ParseResult) : ParseResult :=
  { scheme := pyLower (pyStrip pr.scheme)
    netloc := pyStrip (pyStripChars [ '.'] (pyLower (pyStrip pr.netloc)))
    path := pyStrip (URLWrapper.collapseSlashes pr.path)
    params := []
    query := pyStrip (URLWrapper.removeUselessQueryStringParams (pyStrip pr.query))
    fragment := [] }

/-- `^[0-9a-z.-]+$` (`re.match` anchored on both sides by `^...$`). -/
def URLWrapper.hostnameBasicCheck (h : Str) : Bool :=
  !h.isEmpty && h.all (fun c => isAsciiDigit c || isLowerAlpha c || c = '.' || c = '-')

/-- `[.-]{2,}` searched anywhere in the hostname. -/
def URLWrapper.hostnameDoubledots : Str → Bool
  | [] => false
  | [_] => false
  | a :: b :: rest =>
    ((a = '.' || a = '-') && (b = '.' || b = '-')) ||
      URLWrapper.hostnameDoubledots (b :: rest)

/-- `path.rstrip("/").split(".")[-1].lower()`. -/
def URLWrapper.pathExtension (path : Str) : Str :=
  pyLower ((splitOnChar '.' (pyRstripP (fun c => c = '/') path)).getLastD [])

/-- `URLWrapper._validate_url` with the compiled settings: `PATH_FILTER` is
`None` (check skipped) and `CRAWL_MOBILE_PAGES` is `False`. -/
def URLWrapper.validateUrl (pr : ParseResult) (url : Str) : Except URLWrapperErr Unit :=
  if url.contains '\x00' || url.contains '\r' || url.contains '\n' then
    .error .nullOrNewline
  else if pr.scheme ≠ "http".toList ∧ pr.scheme ≠ "https".toList then
    .error .invalidScheme
  else if !URLWrapper.hostnameBasicCheck pr.netloc || URLWrapper.hostnameDoubledots pr.netloc ||
      !pr.netloc.contains '.' then
    .error .invalidNetloc
  else if Settings.hostnameFilterMatches pr.netloc then
    .error .hostnameFiltered
  else if !Settings.CRAWL_MOBILE_PAGES &&
      (pyStartsWith "m.".toList pr.netloc || pyStartsWith "www.m.".toList pr.netloc) then
    .error .mobileHostname
  else if Settings.FILTERED_FILE_EXTENSIONS.contains (URLWrapper.pathExtension pr.path) then
    .error .extensionFiltered
  else if !pyStartsWith "/".toList pr.path then
    .error .invalidPath
  else .ok ()

/-- `URLWrapper._validate_wikipedia_url` with the compiled settings. -/
def URLWrapper.validateWikipediaUrl (hostname : Str) : Except URLWrapperErr Unit :=
  if !pyEndsWith ".wikipedia.org".toList hostname then .ok ()
  else if !Settings.CRAWL_MOBILE_PAGES && pyEndsWith ".m.wikipedia.org".toList hostname then
    .error .wikipediaMobile
  else
    match Settings.ALLOWED_WIKIPEDIA_LANGUAGES with
    | none => .ok ()
    | some langs =>
      if pyStartsWith "www.".toList hostname then .ok ()
      else if langs.any (fun lang => pyStartsWith (lang ++ [ '.']) hostname) then .ok ()
      else .error .wikipediaLanguage

/-- `URLWrapper._generate_canonical_url`. -/
def URLWrapper.generateCanonicalUrl (pr : ParseResult) : Str :=
  pr.netloc ++ pr.path ++ (if pr.query ≠ [] then '?' :: pr.query else [])

/-- `URLWrapper._check_url_length`. -/
def URLWrapper.checkUrlLength (url : Str) : Except URLWrapperErr Unit :=
  if url.length > Settings.URL_MAX_LENGTH then .error .tooLong else .ok ()

/-- The observable attributes set by `URLWrapper.__init__`. -/
structure URLWrapperResult where
  parsedUrl : ParseResult
  url : Str
  canonicalUrl : Str
deriving Repr, DecidableEq

/-- `URLWrapper.__init__` over an absolute URL string. -/
def URLWrapper.make (absoluteUrl : Str) : Except URLWrapperErr URLWrapperResult := do
  let _ ← URLWrapper.checkUrlLength absoluteUrl
  let pr0 ← urlparseM absoluteUrl
  let pr := URLWrapper.canonicalizeParsedUrl pr0
  let url := pyStrip (ParseResult.geturl pr)
  let _ ← URLWrapper.checkUrlLength url
  let _ ← URLWrapper.validateUrl pr url
  let _ ← URLWrapper.validateWikipediaUrl pr.netloc
  .ok { parsedUrl := pr, url := url,
        canonicalUrl := pyStrip (URLWrapper.generateCanonicalUrl pr) }

example :
    (URLWrapper.make "https://Example.COM:443/a//b/?utm_source=x&q=1#frag".toList) =
      .error .invalidNetloc := by decide

example :
    (URLWrapper.make "https://Example.COM/a//b/?utm_source=x&q=1#frag".toList).toOption.map
      (fun w => (w.url, w.canonicalUrl)) =
      some ("https://example.com/a/b/?q=1".toList, "example.com/a/b/?q=1".toList) := by
  decide

example :
    (URLWrapper.make "http://x.com/?k=+".toList).toOption.map (fun w => w.url) =
      some "http://x.com/?k=".toList := by decide

example :
    (URLWrapper.make "http://x.com/?k=".toList).toOption.map (fun w => w.url) =
      some "http://x.com/".toList := by decide

/- ------------------------------------------------------------------
   Character and list lemmas for the canonicalization round trip.
   ------------------------------------------------------------------ -/

lemma char_le_iff (c d : Char) : (c ≤ d) ↔ c.toNat ≤ d.toNat :=
  ⟨fun h => h, fun h => h⟩

lemma char_eq_iff (c d : Char) : (c = d) ↔ c.toNat = d.toNat := by
  constructor
  · intro h; rw [h]
  · intro h
    have h2 := Char.ofNat_toNat c
    rw [h, Char.ofNat_toNat d] at h2
    exact h2.symm

lemma char_toNat_lt (c : Char) : c.toNat < 1114112 := by
  have h := c.valid
  simp only [Char.toNat]
  rcases h with h | ⟨h1, h2⟩ <;> omega

lemma char_toNat_not_surrogate (c : Char) : ¬(55296 ≤ c.toNat ∧ c.toNat < 57344) := by
  have h := c.valid
  simp only [Char.toNat]
  rcases h with h | ⟨h1, h2⟩ <;> omega

lemma char_ofNat_toNat_eq (n : Nat) (h1 : n < 1114112) (h2 : ¬(55296 ≤ n ∧ n < 57344)) :
    (Char.ofNat n).toNat = n := by
  rw [Char.ofNat, dif_pos (by rcases Nat.lt_or_ge n 55296 with h | h
                              · exact Or.inl h
                              · exact Or.inr ⟨by omega, h1⟩)]
  rfl

lemma isAsciiAlpha_iff (c : Char) :
    isAsciiAlpha c = true ↔
      ((97 ≤ c.toNat ∧ c.toNat ≤ 122) ∨ (65 ≤ c.toNat ∧ c.toNat ≤ 90)) := by
  rw [isAsciiAlpha]
  simp only [Bool.or_eq_true, Bool.and_eq_true, decide_eq_true_eq, char_le_iff]
  rfl

lemma isAsciiDigit_iff (c : Char) :
    isAsciiDigit c = true ↔ (48 ≤ c.toNat ∧ c.toNat ≤ 57) := by
  rw [isAsciiDigit]
  simp only [Bool.and_eq_true, decide_eq_true_eq, char_le_iff]
  rfl

lemma isLowerAlpha_iff (c : Char) :
    isLowerAlpha c = true ↔ (97 ≤ c.toNat ∧ c.toNat ≤ 122) := by
  rw [isLowerAlpha]
  simp only [Bool.and_eq_true, decide_eq_true_eq, char_le_iff]
  rfl

lemma char_toLower_eq_self (c : Char) (h : c.toNat < 65 ∨ 90 < c.toNat) :
    c.toLower = c := by
  rw [Char.toLower]
  rw [if_neg (by omega)]

lemma takeWhile_append_all (p : Char → Bool) (a b : Str) (ha : ∀ c ∈ a, p c = true)
    (hb : ∀ c, b.head? = some c → p c = false) : (a ++ b).takeWhile p = a := by
  induction a with
  | nil =>
    simp only [List.nil_append]
    cases b with
    | nil => rfl
    | cons x xs => rw [List.takeWhile_cons_of_neg (by simp [hb x rfl])]
  | cons x xs ih =>
    rw [List.cons_append, List.takeWhile_cons_of_pos (ha x (by simp))]
    rw [ih (fun c hc => ha c (by simp [hc]))]

lemma dropWhile_append_all (p : Char → Bool) (a b : Str) (ha : ∀ c ∈ a, p c = true)
    (hb : ∀ c, b.head? = some c → p c = false) : (a ++ b).dropWhile p = b := by
  induction a with
  | nil =>
    simp only [List.nil_append]
    cases b with
    | nil => rfl
    | cons x xs => rw [List.dropWhile_cons_of_neg (by simp [hb x rfl])]
  | cons x xs ih =>
    rw [List.cons_append, List.dropWhile_cons_of_pos (ha x (by simp))]
    exact ih (fun c hc => ha c (by simp [hc]))

lemma splitOnce_eq_none (sep : Char) (l : Str) (h : ∀ c ∈ l, c ≠ sep) :
    splitOnce sep l = none := by
  induction l with
  | nil => rfl
  | cons x xs ih =>
    rw [splitOnce, if_neg (h x (by simp)), ih (fun c hc => h c (by simp [hc]))]

lemma splitOnce_append_sep (sep : Char) (a b : Str) (h : ∀ c ∈ a, c ≠ sep) :
    splitOnce sep (a ++ sep :: b) = some (a, b) := by
  induction a with
  | nil => simp [splitOnce]
  | cons x xs ih =>
    rw [List.cons_append, splitOnce, if_neg (h x (by simp)),
      ih (fun c hc => h c (by simp [hc]))]

lemma splitOnChar_no_sep (sep : Char) (l : Str) (h : ∀ c ∈ l, c ≠ sep) :
    splitOnChar sep l = [l] := by
  induction l with
  | nil => rfl
  | cons x xs ih =>
    rw [splitOnChar, if_neg (h x (by simp)), ih (fun c hc => h c (by simp [hc]))]

lemma splitOnChar_append_sep (sep : Char) (a r : Str) (h : ∀ c ∈ a, c ≠ sep) :
    splitOnChar sep (a ++ sep :: r) = a :: splitOnChar sep r := by
  induction a with
  | nil =>
    simp only [List.nil_append]
    rw [splitOnChar, if_pos rfl]
  | cons x xs ih =>
    rw [List.cons_append, splitOnChar, if_neg (h x (by simp)),
      ih (fun c hc => h c (by simp [hc]))]

lemma joinSep_cons_cons (sep : Char) (x y : Str) (rest : List Str) :
    joinSep sep (x :: y :: rest) = x ++ sep :: joinSep sep (y :: rest) := rfl

lemma splitOnChar_joinSep (sep : Char) (es : List Str) (hne : es ≠ [])
    (h : ∀ e ∈ es, ∀ c ∈ e, c ≠ sep) : splitOnChar sep (joinSep sep es) = es := by
  induction es with
  | nil => exact absurd rfl hne
  | cons e rest ih =>
    cases rest with
    | nil => exact splitOnChar_no_sep sep e (h e (by simp))
    | cons e2 rest2 =>
      rw [joinSep_cons_cons, splitOnChar_append_sep sep e _ (h e (by simp))]
      rw [ih (by simp) (fun x hx c hc => h x (by simp [hx]) c hc)]

lemma dropWhile_eq_self_of_head (p : Char → Bool) (l : Str)
    (h : ∀ c, l.head? = some c → p c = false) : l.dropWhile p = l := by
  cases l with
  | nil => rfl
  | cons x xs => rw [List.dropWhile_cons_of_neg (by simp [h x rfl])]

lemma pyStripP_eq_self (p : Char → Bool) (l : Str)
    (hh : ∀ c, l.head? = some c → p c = false)
    (hl : ∀ c, l.getLast? = some c → p c = false) : pyStripP p l = l := by
  rw [pyStripP, pyLstripP, dropWhile_eq_self_of_head p l hh, pyRstripP,
    dropWhile_eq_self_of_head p l.reverse (by
      intro c hc
      rw [← List.getLast?_reverse] at hc
      simp only [List.reverse_reverse] at hc
      exact hl c hc)]
  exact l.reverse_reverse

lemma pyStripP_eq_self_of_all (p : Char → Bool) (l : Str)
    (h : ∀ c ∈ l, p c = false) : pyStripP p l = l :=
  pyStripP_eq_self p l
    (fun c hc => h c (by cases l with
      | nil => simp at hc
      | cons x xs => simp at hc; simp [hc]))
    (fun c hc => h c (List.mem_of_getLast?_eq_some hc))

lemma pyStrip_eq_self (l : Str) (h : noEdgeWs l = true) : pyStrip l = l := by
  rw [noEdgeWs, Bool.and_eq_true] at h
  refine pyStripP_eq_self pyIsSpace l ?_ ?_
  · intro c hc
    have := h.1
    rw [hc] at this
    simpa using this
  · intro c hc
    have := h.2
    rw [hc] at this
    simpa using this

lemma pyStrip_idem (l : Str) : pyStrip (pyStrip l) = pyStrip l :=
  pyStrip_eq_self (pyStrip l) (noEdgeWs_pyStrip l)

lemma utf8EncodeChar_bytes_lt (c : Char) : ∀ b ∈ utf8EncodeChar c, b < 256 := by
  intro b hb
  rw [utf8EncodeChar] at hb
  have hlt := char_toNat_lt c
  split at hb
  · fin_cases hb
    omega
  · split at hb
    · fin_cases hb <;> omega
    · split at hb
      · fin_cases hb <;> omega
      · fin_cases hb <;> omega

lemma utf8Decode_encode_cons (c : Char) (bs : List Nat) :
    utf8DecodeReplace (utf8EncodeChar c ++ bs) = c :: utf8DecodeReplace bs := by
  have hlt := char_toNat_lt c
  have hsur := char_toNat_not_surrogate c
  rw [utf8EncodeChar]
  by_cases h1 : c.toNat < 0x80
  · rw [if_pos h1]
    rw [List.cons_append, utf8DecodeReplace_cons]
    rw [utf8DecodeStep.eq_def, if_pos h1]
    rw [Char.ofNat_toNat]
    simp
  · rw [if_neg h1]
    by_cases h2 : c.toNat < 0x800
    · rw [if_pos h2]
      simp only [List.cons_append, List.nil_append]
      rw [utf8DecodeReplace_cons]
      have hstep : utf8DecodeStep (0xC0 + c.toNat / 64) ((0x80 + c.toNat % 64) :: bs) =
          (c, bs) := by
        rw [utf8DecodeStep.eq_def]
        rw [if_neg (by omega), if_pos (by simp; omega)]
        dsimp only
        rw [if_pos (by simp [isUtf8Cont]; omega)]
        rw [if_pos (by simp; omega)]
        have : (0xC0 + c.toNat / 64 - 0xC0) * 64 + (0x80 + c.toNat % 64 - 0x80) = c.toNat := by
          omega
        rw [this, Char.ofNat_toNat]
      rw [hstep]
    · rw [if_neg h2]
      by_cases h3 : c.toNat < 0x10000
      · rw [if_pos h3]
        simp only [List.cons_append, List.nil_append]
        rw [utf8DecodeReplace_cons]
        have hstep : utf8DecodeStep (0xE0 + c.toNat / 4096)
            ((0x80 + c.toNat / 64 % 64) :: (0x80 + c.toNat % 64) :: bs) = (c, bs) := by
          rw [utf8DecodeStep.eq_def]
          rw [if_neg (by omega), if_neg (by simp <;> omega), if_pos (by simp <;> omega)]
          dsimp only
          rw [if_pos (by simp [isUtf8Cont] <;> omega)]
          rw [if_pos (by simp [hsur] <;> omega)]
          have harith : (0xE0 + c.toNat / 4096 - 0xE0) * 4096 +
              (0x80 + c.toNat / 64 % 64 - 0x80) * 64 + (0x80 + c.toNat % 64 - 0x80) =
              c.toNat := by omega
          rw [harith, Char.ofNat_toNat]
        rw [hstep]
      · rw [if_neg h3]
        simp only [List.cons_append, List.nil_append]
        rw [utf8DecodeReplace_cons]
        have hstep : utf8DecodeStep (0xF0 + c.toNat / 262144)
            ((0x80 + c.toNat / 4096 % 64) :: (0x80 + c.toNat / 64 % 64) ::
              (0x80 + c.toNat % 64) :: bs) = (c, bs) := by
          rw [utf8DecodeStep.eq_def]
          rw [if_neg (by omega), if_neg (by simp <;> omega), if_neg (by simp <;> omega),
            if_pos (by simp <;> omega)]
          dsimp only
          rw [if_pos (by simp [isUtf8Cont] <;> omega)]
          rw [if_pos (by simp <;> omega)]
          have harith : (0xF0 + c.toNat / 262144 - 0xF0) * 262144 +
              (0x80 + c.toNat / 4096 % 64 - 0x80) * 4096 +
              (0x80 + c.toNat / 64 % 64 - 0x80) * 64 + (0x80 + c.toNat % 64 - 0x80) =
              c.toNat := by omega
          rw [harith, Char.ofNat_toNat]
        rw [hstep]

lemma utf8Decode_flatMap_encode (x : Str) :
    utf8DecodeReplace (x.flatMap utf8EncodeChar) = x := by
  induction x with
  | nil => rfl
  | cons c rest ih =>
    rw [List.flatMap_cons, utf8Decode_encode_cons, ih]

/-- The character translation done by `parse_qsl` before unquoting. -/
def plusToSpace (c : Char) : Char := if c = '+' then ' ' else c

/-- The per-character shape of `quote_plus` output after `+`→space
translation (used only to state the round-trip lemmas). -/
def mq1 (c : Char) : Str :=
  if c = ' ' then [ ' ']
  else if isAlwaysSafe c then [c]
  else (utf8EncodeChar c).flatMap fun b =>
    [ '%', hexDigitUpper (b / 16), hexDigitUpper (b % 16)]

lemma hexDigitUpper_ne_markers (n : Nat) (h : n < 16) :
    hexDigitUpper n ≠ '+' ∧ hexDigitUpper n ≠ '%' ∧ hexDigitUpper n ≠ '&' ∧
    hexDigitUpper n ≠ '=' ∧ (hexDigitUpper n).toNat < 0x80 ∧
    hexDigitVal (hexDigitUpper n) = some n := by
  interval_cases n <;> exact ⟨by decide, by decide, by decide, by decide, by decide, by decide⟩

lemma isAlwaysSafe_toNat (c : Char) (h : isAlwaysSafe c = true) :
    (97 ≤ c.toNat ∧ c.toNat ≤ 122) ∨ (65 ≤ c.toNat ∧ c.toNat ≤ 90) ∨
    (48 ≤ c.toNat ∧ c.toNat ≤ 57) ∨ c.toNat = 95 ∨ c.toNat = 46 ∨
    c.toNat = 45 ∨ c.toNat = 126 := by
  rw [isAlwaysSafe] at h
  simp only [Bool.or_eq_true, decide_eq_true_eq] at h
  rcases h with ((((ha | hd) | h1) | h2) | h3) | h4
  · rw [isAsciiAlpha_iff] at ha
    rcases ha with ha | ha
    · exact Or.inl ha
    · exact Or.inr (Or.inl ha)
  · rw [isAsciiDigit_iff] at hd
    exact Or.inr (Or.inr (Or.inl hd))
  · exact Or.inr (Or.inr (Or.inr (Or.inl (by rw [h1]; decide))))
  · exact Or.inr (Or.inr (Or.inr (Or.inr (Or.inl (by rw [h2]; decide)))))
  · exact Or.inr (Or.inr (Or.inr (Or.inr (Or.inr (Or.inl (by rw [h3]; decide))))))
  · exact Or.inr (Or.inr (Or.inr (Or.inr (Or.inr (Or.inr (by rw [h4]; decide))))))

lemma isAlwaysSafe_facts (c : Char) (h : isAlwaysSafe c = true) :
    c ≠ '+' ∧ c ≠ '%' ∧ c ≠ '&' ∧ c ≠ '=' ∧ c.toNat < 0x80 := by
  have hn := isAlwaysSafe_toNat c h
  refine ⟨?_, ?_, ?_, ?_, by omega⟩
  · intro he
    have hc : c.toNat = 43 := by rw [he]; decide
    omega
  · intro he
    have hc : c.toNat = 37 := by rw [he]; decide
    omega
  · intro he
    have hc : c.toNat = 38 := by rw [he]; decide
    omega
  · intro he
    have hc : c.toNat = 61 := by rw [he]; decide
    omega

lemma map_plusToSpace_quotePlus (x : Str) :
    (quotePlus x).map plusToSpace = x.flatMap mq1 := by
  rw [quotePlus, List.map_flatMap]
  refine List.flatMap_congr ?_
  intro c _
  by_cases hsp : c = ' '
  · subst hsp
    simp [mq1, plusToSpace]
  · rw [if_neg hsp]
    by_cases hsafe : isAlwaysSafe c
    · rw [if_pos hsafe, mq1, if_neg hsp, if_pos hsafe]
      have := isAlwaysSafe_facts c hsafe
      simp [plusToSpace, this.1]
    · rw [if_neg hsafe, mq1, if_neg hsp, if_neg hsafe]
      rw [List.map_flatMap]
      refine List.flatMap_congr ?_
      intro b hb
      have hblt := utf8EncodeChar_bytes_lt c b hb
      have h1 := hexDigitUpper_ne_markers (b / 16) (by omega)
      have h2 := hexDigitUpper_ne_markers (b % 16) (by omega)
      simp [plusToSpace, h1.1, h2.1]

lemma pctDecodeByte_triple (b : Nat) (hb : b < 256) (t : Str) :
    pctDecodeByte (hexDigitUpper (b / 16) :: hexDigitUpper (b % 16) :: t) = some b := by
  have h1 := hexDigitUpper_ne_markers (b / 16) (by omega)
  have h2 := hexDigitUpper_ne_markers (b % 16) (by omega)
  simp only [pctDecodeByte, h1.2.2.2.2.2, h2.2.2.2.2.2]
  congr 1
  omega

lemma pctRun_triples (bs : List Nat) (h : ∀ b ∈ bs, b < 256) (rest : Str) :
    pctRun ((bs.flatMap fun b =>
        [ '%', hexDigitUpper (b / 16), hexDigitUpper (b % 16)]) ++ rest) =
      (bs ++ (pctRun rest).1, (pctRun rest).2) := by
  induction bs with
  | nil => simp
  | cons b bs' ih =>
    have hb := h b (by simp)
    rw [List.flatMap_cons]
    simp only [List.append_assoc, List.cons_append, List.nil_append]
    rw [pctRun_pct_some _ b (pctDecodeByte_triple b hb _)]
    simp only [List.drop_succ_cons, List.drop_zero]
    rw [ih (fun b2 hb2 => h b2 (by simp [hb2]))]

lemma pctRun_mq1_append (c : Char) (rest : Str) :
    pctRun (mq1 c ++ rest) =
      (utf8EncodeChar c ++ (pctRun rest).1, (pctRun rest).2) := by
  rw [mq1]
  by_cases hsp : c = ' '
  · subst hsp
    rw [if_pos rfl]
    rw [List.cons_append, List.nil_append,
      pctRun_plain ' ' rest (by decide) (by decide)]
    rw [show utf8EncodeChar ' ' = [32] from rfl]
    rfl
  · rw [if_neg hsp]
    by_cases hsafe : isAlwaysSafe c
    · rw [if_pos hsafe]
      have hf := isAlwaysSafe_facts c hsafe
      rw [List.cons_append, List.nil_append,
        pctRun_plain c rest (by omega) hf.2.1]
      rw [utf8EncodeChar, if_pos hf.2.2.2.2]
      rfl
    · rw [if_neg hsafe]
      exact pctRun_triples (utf8EncodeChar c) (utf8EncodeChar_bytes_lt c) rest

lemma pctRun_flatMap_mq1 (x : Str) :
    pctRun (x.flatMap mq1) = (x.flatMap utf8EncodeChar, []) := by
  induction x with
  | nil => rfl
  | cons c x' ih =>
    rw [List.flatMap_cons, pctRun_mq1_append, ih, List.flatMap_cons]

lemma mq1_ascii (c : Char) : ∀ d ∈ mq1 c, d.toNat < 0x80 := by
  intro d hd
  rw [mq1] at hd
  by_cases hsp : c = ' '
  · rw [if_pos hsp] at hd
    simp at hd
    rw [hd]; decide
  · rw [if_neg hsp] at hd
    by_cases hsafe : isAlwaysSafe c
    · rw [if_pos hsafe] at hd
      simp at hd
      rw [hd]
      exact (isAlwaysSafe_facts c hsafe).2.2.2.2
    · rw [if_neg hsafe] at hd
      simp only [List.mem_flatMap] at hd
      obtain ⟨b, hb, hd⟩ := hd
      have hblt := utf8EncodeChar_bytes_lt c b hb
      have h1 := hexDigitUpper_ne_markers (b / 16) (by omega)
      have h2 := hexDigitUpper_ne_markers (b % 16) (by omega)
      simp at hd
      rcases hd with hd | hd | hd
      · rw [hd]; decide
      · rw [hd]; exact h1.2.2.2.2.1
      · rw [hd]; exact h2.2.2.2.2.1

lemma pctRun_snd_nil_of_ascii_aux : ∀ (n : Nat) (l : Str), l.length ≤ n →
    (∀ c ∈ l, c.toNat < 0x80) → (pctRun l).2 = [] := by
  intro n
  induction n with
  | zero =>
    intro l hl _
    match l with
    | [] => rfl
    | c :: cs => simp at hl
  | succ n ih =>
    intro l hl hascii
    match l with
    | [] => rfl
    | c :: rest =>
      have hc := hascii c (by simp)
      by_cases hp : c = '%'
      · subst hp
        cases htrip : pctDecodeByte rest with
        | some b =>
          rw [pctRun_pct_some rest b htrip]
          have hd := List.length_drop 2 rest
          simp at hl
          exact ih (rest.drop 2) (by omega)
            (fun d hdm => hascii d (by simp [List.drop_subset 2 rest hdm]))
        | none =>
          rw [pctRun_pct_none rest htrip]
          simp at hl
          exact ih rest (by omega) (fun d hdm => hascii d (by simp [hdm]))
      · rw [pctRun_plain c rest (by omega) hp]
        simp at hl
        exact ih rest (by omega) (fun d hdm => hascii d (by simp [hdm]))

lemma unquote_of_ascii (l : Str) (h : ∀ c ∈ l, c.toNat < 0x80) :
    unquote l = utf8DecodeReplace (pctRun l).1 := by
  cases l with
  | nil => rfl
  | cons c rest =>
    have hc := h c (by simp)
    rw [unquote_ascii c rest (by omega)]
    rw [pctRun_snd_nil_of_ascii_aux (c :: rest).length (c :: rest) (le_refl _) h]
    rw [show unquote [] = [] from rfl, List.append_nil]

/-- The quote/unquote round trip underlying the idempotence of query
re-encoding: `unquote_plus` is a left inverse of `quote_plus`. -/
lemma unquotePlus_quotePlus (x : Str) : unquotePlus (quotePlus x) = x := by
  show unquote ((quotePlus x).map plusToSpace) = x
  rw [map_plusToSpace_quotePlus]
  rw [unquote_of_ascii _ (by
    intro c hc
    simp only [List.mem_flatMap] at hc
    obtain ⟨d, _, hc⟩ := hc
    exact mq1_ascii d c hc)]
  rw [pctRun_flatMap_mq1]
  exact utf8Decode_flatMap_encode x

lemma quotePlus_eq_nil_iff (x : Str) : quotePlus x = [] ↔ x = [] := by
  constructor
  · intro h
    cases x with
    | nil => rfl
    | cons c x' =>
      rw [quotePlus, List.flatMap_cons] at h
      rcases List.append_eq_nil.mp h with ⟨h1, -⟩
      by_cases hsp : c = ' '
      · rw [if_pos hsp] at h1; exact absurd h1 (by simp)
      · rw [if_neg hsp] at h1
        by_cases hsafe : isAlwaysSafe c
        · rw [if_pos hsafe] at h1; exact absurd h1 (by simp)
        · rw [if_neg hsafe] at h1
          have henc : utf8EncodeChar c ≠ [] := by
            rw [utf8EncodeChar]
            split
            · simp
            · split
              · simp
              · split <;> simp
          cases henc2 : utf8EncodeChar c with
          | nil => exact absurd henc2 henc
          | cons b bs =>
            rw [henc2, List.flatMap_cons] at h1
            simp at h1
  · intro h; rw [h]; rfl

lemma quotePlus_ne_sep (x : Str) : ∀ d ∈ quotePlus x, d ≠ '&' ∧ d ≠ '=' := by
  intro d hd
  rw [quotePlus] at hd
  simp only [List.mem_flatMap] at hd
  obtain ⟨c, _, hd⟩ := hd
  by_cases hsp : c = ' '
  · rw [if_pos hsp] at hd
    simp at hd
    rw [hd]; exact ⟨by decide, by decide⟩
  · rw [if_neg hsp] at hd
    by_cases hsafe : isAlwaysSafe c
    · rw [if_pos hsafe] at hd
      simp at hd
      rw [hd]
      exact ⟨(isAlwaysSafe_facts c hsafe).2.2.1, (isAlwaysSafe_facts c hsafe).2.2.2.1⟩
    · rw [if_neg hsafe] at hd
      simp only [List.mem_flatMap] at hd
      obtain ⟨b, hb, hd⟩ := hd
      have hblt := utf8EncodeChar_bytes_lt c b hb
      have h1 := hexDigitUpper_ne_markers (b / 16) (by omega)
      have h2 := hexDigitUpper_ne_markers (b % 16) (by omega)
      simp at hd
      rcases hd with hd | hd | hd
      · rw [hd]; exact ⟨by decide, by decide⟩
      · rw [hd]; exact ⟨h1.2.2.1, h1.2.2.2.1⟩
      · rw [hd]; exact ⟨h2.2.2.1, h2.2.2.2.1⟩

lemma filterMap_qsl_enc (pairs : List (Str × Str))
    (hv : ∀ kv ∈ pairs, kv.2 ≠ []) :
    ((pairs.map fun kv => quotePlus kv.1 ++ '=' :: quotePlus kv.2).filterMap
      fun nv =>
        if nv = [] then none
        else
          match splitOnce '=' nv with
          | none => none
          | some (n, v) =>
            if v = [] then none else some (unquotePlus n, unquotePlus v)) = pairs := by
  induction pairs with
  | nil => rfl
  | cons kv rest ih =>
    rw [List.map_cons, List.filterMap_cons]
    have h2 : splitOnce '=' (quotePlus kv.1 ++ '=' :: quotePlus kv.2)
        = some (quotePlus kv.1, quotePlus kv.2) :=
      splitOnce_append_sep '=' _ _ (fun c hc => (quotePlus_ne_sep kv.1 c hc).2)
    have h3 : ¬ quotePlus kv.2 = [] := fun h =>
      hv kv (by simp) ((quotePlus_eq_nil_iff kv.2).mp h)
    simp only [h2, if_neg h3,
      if_neg (show ¬ (quotePlus kv.1 ++ '=' :: quotePlus kv.2) = [] by simp)]
    rw [unquotePlus_quotePlus, unquotePlus_quotePlus,
      ih (fun kv2 hm => hv kv2 (by simp [hm]))]

/-- Re-encoding and re-parsing a query string is the identity on pair lists
whose values are non-empty (the condition `keep_blank_values=False` makes
essential). -/
lemma parseQsl_urlencode (pairs : List (Str × Str)) (hne : pairs ≠ [])
    (hv : ∀ kv ∈ pairs, kv.2 ≠ []) : parseQsl (urlencode pairs) = pairs := by
  rw [parseQsl, urlencode]
  rw [splitOnChar_joinSep '&' _ (by simpa using hne) ?hns]
  case hns =>
    intro e he c hc
    simp only [List.mem_map] at he
    obtain ⟨kv, hkv, he⟩ := he
    subst he
    simp only [List.mem_append, List.mem_cons] at hc
    rcases hc with hc | hc | hc
    · exact (quotePlus_ne_sep kv.1 c hc).1
    · rw [hc]; decide
    · exact (quotePlus_ne_sep kv.2 c hc).1
  exact filterMap_qsl_enc pairs hv

/- ------------------------------------------------------------------
   Character classes of canonical components (for the C3 round trip).
   ------------------------------------------------------------------ -/

/-- The characters that can appear in an `urlencode` output: `+`, `%`, `&`,
`=`, ASCII alphanumerics and `_ . - ~` (stated on code points). -/
def queryChar (d : Char) : Prop :=
  d.toNat = 43 ∨ d.toNat = 37 ∨ d.toNat = 38 ∨ d.toNat = 61 ∨
  (48 ≤ d.toNat ∧ d.toNat ≤ 57) ∨ (65 ≤ d.toNat ∧ d.toNat ≤ 90) ∨
  (97 ≤ d.toNat ∧ d.toNat ≤ 122) ∨ d.toNat = 95 ∨ d.toNat = 46 ∨
  d.toNat = 45 ∨ d.toNat = 126

lemma hexDigitUpper_good (n : Nat) (h : n < 16) :
    (48 ≤ (hexDigitUpper n).toNat ∧ (hexDigitUpper n).toNat ≤ 57) ∨
    (65 ≤ (hexDigitUpper n).toNat ∧ (hexDigitUpper n).toNat ≤ 70) := by
  interval_cases n <;> decide

lemma quotePlus_queryChar (x : Str) : ∀ d ∈ quotePlus x, queryChar d := by
  intro d hd
  rw [quotePlus] at hd
  simp only [List.mem_flatMap] at hd
  obtain ⟨c, _, hd⟩ := hd
  by_cases hsp : c = ' '
  · rw [if_pos hsp] at hd
    simp at hd
    rw [hd]; exact Or.inl (by decide)
  · rw [if_neg hsp] at hd
    by_cases hsafe : isAlwaysSafe c
    · rw [if_pos hsafe] at hd
      simp at hd
      rw [hd]
      have := isAlwaysSafe_toNat c hsafe
      rw [queryChar]
      omega
    · rw [if_neg hsafe] at hd
      simp only [List.mem_flatMap] at hd
      obtain ⟨b, hb, hd⟩ := hd
      have hblt := utf8EncodeChar_bytes_lt c b hb
      have h1 := hexDigitUpper_good (b / 16) (by omega)
      have h2 := hexDigitUpper_good (b % 16) (by omega)
      simp at hd
      rcases hd with hd | hd | hd
      · rw [hd]; exact Or.inr (Or.inl (by decide))
      · rw [hd]; rw [queryChar]; omega
      · rw [hd]; rw [queryChar]; omega

lemma mem_joinSep (c : Char) (es : List Str) (d : Char) (hd : d ∈ joinSep c es) :
    d = c ∨ ∃ e ∈ es, d ∈ e := by
  induction es with
  | nil => simp [joinSep] at hd
  | cons e rest ih =>
    cases rest with
    | nil =>
      rw [joinSep] at hd
      exact Or.inr ⟨e, by simp, hd⟩
    | cons e2 rest2 =>
      rw [joinSep_cons_cons] at hd
      simp only [List.mem_append, List.mem_cons] at hd
      rcases hd with hd | hd | hd
      · exact Or.inr ⟨e, by simp, hd⟩
      · exact Or.inl hd
      · rcases ih hd with h | ⟨e3, he3, h⟩
        · exact Or.inl h
        · exact Or.inr ⟨e3, by simp [he3], h⟩

lemma urlencode_queryChar (pairs : List (Str × Str)) :
    ∀ d ∈ urlencode pairs, queryChar d := by
  intro d hd
  rw [urlencode] at hd
  rcases mem_joinSep '&' _ d hd with h | ⟨e, he, h⟩
  · rw [h]; exact Or.inr (Or.inr (Or.inl (by decide)))
  · simp only [List.mem_map] at he
    obtain ⟨kv, _, he⟩ := he
    subst he
    simp only [List.mem_append, List.mem_cons] at h
    rcases h with h | h | h
    · exact quotePlus_queryChar kv.1 d h
    · rw [h]; exact Or.inr (Or.inr (Or.inr (Or.inl (by decide))))
    · exact quotePlus_queryChar kv.2 d h

lemma queryChar_facts (d : Char) (h : queryChar d) :
    pyIsSpace d = false ∧ d ≠ '#' ∧ d ≠ '?' := by
  rw [queryChar] at h
  refine ⟨?_, ?_, ?_⟩
  · rw [pyIsSpace]
    have h1 : d ≠ ' ' := fun he => by rw [he] at h; exact absurd h (by decide)
    have h2 : d ≠ '\t' := fun he => by rw [he] at h; exact absurd h (by decide)
    have h3 : d ≠ '\n' := fun he => by rw [he] at h; exact absurd h (by decide)
    have h4 : d ≠ '\r' := fun he => by rw [he] at h; exact absurd h (by decide)
    have h5 : d ≠ '\x0b' := fun he => by rw [he] at h; exact absurd h (by decide)
    have h6 : d ≠ '\x0c' := fun he => by rw [he] at h; exact absurd h (by decide)
    simp [h1, h2, h3, h4, h5, h6]
  · exact fun he => by rw [he] at h; exact absurd h (by decide)
  · exact fun he => by rw [he] at h; exact absurd h (by decide)

/-- The hostname class checked by `_validate_url` (`[0-9a-z.-]`), on code
points. -/
def hostChar (d : Char) : Prop :=
  (48 ≤ d.toNat ∧ d.toNat ≤ 57) ∨ (97 ≤ d.toNat ∧ d.toNat ≤ 122) ∨
  d.toNat = 46 ∨ d.toNat = 45

lemma hostnameBasicCheck_chars (h : Str) (hb : URLWrapper.hostnameBasicCheck h = true) :
    ∀ d ∈ h, hostChar d := by
  rw [URLWrapper.hostnameBasicCheck, Bool.and_eq_true, List.all_eq_true] at hb
  intro d hd
  have := hb.2 d hd
  simp only [Bool.or_eq_true, decide_eq_true_eq] at this
  rcases this with ((h1 | h2) | h3) | h4
  · rw [isAsciiDigit_iff] at h1; exact Or.inl h1
  · rw [isLowerAlpha_iff] at h2; exact Or.inr (Or.inl h2)
  · rw [h3]; exact Or.inr (Or.inr (Or.inl (by decide)))
  · rw [h4]; exact Or.inr (Or.inr (Or.inr (by decide)))

lemma hostChar_facts (d : Char) (h : hostChar d) :
    pyIsSpace d = false ∧ d.toLower = d ∧ d ≠ '/' ∧ d ≠ '?' ∧ d ≠ '#' ∧
    d ≠ '[' ∧ d ≠ ']' ∧ d ≠ ':' := by
  rw [hostChar] at h
  refine ⟨?_, ?_, ?_, ?_, ?_, ?_, ?_, ?_⟩
  · rw [pyIsSpace]
    have h1 : d ≠ ' ' := fun he => by rw [he] at h; exact absurd h (by decide)
    have h2 : d ≠ '\t' := fun he => by rw [he] at h; exact absurd h (by decide)
    have h3 : d ≠ '\n' := fun he => by rw [he] at h; exact absurd h (by decide)
    have h4 : d ≠ '\r' := fun he => by rw [he] at h; exact absurd h (by decide)
    have h5 : d ≠ '\x0b' := fun he => by rw [he] at h; exact absurd h (by decide)
    have h6 : d ≠ '\x0c' := fun he => by rw [he] at h; exact absurd h (by decide)
    simp [h1, h2, h3, h4, h5, h6]
  · exact char_toLower_eq_self d (by omega)
  · exact fun he => by rw [he] at h; exact absurd h (by decide)
  · exact fun he => by rw [he] at h; exact absurd h (by decide)
  · exact fun he => by rw [he] at h; exact absurd h (by decide)
  · exact fun he => by rw [he] at h; exact absurd h (by decide)
  · exact fun he => by rw [he] at h; exact absurd h (by decide)
  · exact fun he => by rw [he] at h; exact absurd h (by decide)

lemma pyLower_eq_self_of (l : Str) (h : ∀ c ∈ l, c.toLower = c) :
    pyLower l = l := by
  rw [pyLower]
  have h2 : l.map Char.toLower = l.map id := List.map_congr_left (fun c hc => h c hc)
  rw [h2, List.map_id]

lemma splitOnce_some_eq (sep : Char) (l a b : Str)
    (h : splitOnce sep l = some (a, b)) :
    l = a ++ sep :: b ∧ ∀ c ∈ a, c ≠ sep := by
  induction l generalizing a b with
  | nil => simp [splitOnce] at h
  | cons x xs ih =>
    rw [splitOnce] at h
    by_cases hx : x = sep
    · rw [if_pos hx] at h
      simp only [Option.some.injEq, Prod.mk.injEq] at h
      rw [← h.1, ← h.2, hx]
      exact ⟨by simp, by simp⟩
    · rw [if_neg hx] at h
      cases hs : splitOnce sep xs with
      | none => rw [hs] at h; simp at h
      | some ab =>
        rw [hs] at h
        simp only [Option.some.injEq, Prod.mk.injEq] at h
        rcases ih ab.1 ab.2 (by rw [hs]) with ⟨he, hns⟩
        rw [← h.1, ← h.2]
        constructor
        · rw [List.cons_append, ← he]
        · intro c hc
          simp only [List.mem_cons] at hc
          rcases hc with hc | hc
          · rw [hc]; exact hx
          · exact hns c hc

lemma splitOnce_none_no_sep (sep : Char) (l : Str)
    (h : splitOnce sep l = none) : ∀ c ∈ l, c ≠ sep := by
  induction l with
  | nil => simp
  | cons x xs ih =>
    rw [splitOnce] at h
    by_cases hx : x = sep
    · rw [if_pos hx] at h; simp at h
    · rw [if_neg hx] at h
      cases hs : splitOnce sep xs with
      | none =>
        intro c hc
        simp only [List.mem_cons] at hc
        rcases hc with hc | hc
        · rw [hc]; exact hx
        · exact ih hs c hc
      | some ab => rw [hs] at h; simp at h

lemma mem_collapseSlashesAux (b : Bool) (x : Str) :
    ∀ d ∈ URLWrapper.collapseSlashesAux b x, d ∈ x := by
  induction x generalizing b with
  | nil => simp [URLWrapper.collapseSlashesAux]
  | cons c rest ih =>
    intro d hd
    rw [URLWrapper.collapseSlashesAux] at hd
    by_cases hc : c = '/'
    · rw [if_pos hc] at hd
      cases b with
      | true => simp [ih true d hd]
      | false =>
        simp only [Bool.false_eq_true, if_false, List.mem_cons] at hd
        rcases hd with hd | hd
        · simp [hd, hc]
        · simp [ih true d hd]
    · rw [if_neg hc] at hd
      simp only [List.mem_cons] at hd
      rcases hd with hd | hd
      · simp [hd]
      · simp [ih false d hd]

lemma pyStripP_subset (p : Char → Bool) (l : Str) :
    ∀ d ∈ pyStripP p l, d ∈ l :=
  fun d hd => (pyStripP_isMidOf p l).subset hd

/- ------------------------------------------------------------------
   Slash collapsing and the params-splitting invariant.
   ------------------------------------------------------------------ -/

def noSlashPair (a b : Char) : Prop := ¬(a = '/' ∧ b = '/')

/-- No two adjacent `/` characters (the state after `re.sub(r'/+', '/')`). -/
def slashCollapsed (l : Str) : Prop := l.Chain' noSlashPair

lemma collapseSlashesAux_head_true (l : Str) :
    ∀ c, (URLWrapper.collapseSlashesAux true l).head? = some c → c ≠ '/' := by
  induction l with
  | nil => intro c h; simp [URLWrapper.collapseSlashesAux] at h
  | cons x xs ih =>
    intro c h
    by_cases hx : x = '/'
    · simp [URLWrapper.collapseSlashesAux, hx] at h
      exact ih c h
    · simp [URLWrapper.collapseSlashesAux, hx] at h
      rw [← h]
      exact hx

lemma collapseSlashesAux_collapsed (l : Str) :
    ∀ b, slashCollapsed (URLWrapper.collapseSlashesAux b l) := by
  induction l with
  | nil => intro b; simp [URLWrapper.collapseSlashesAux, slashCollapsed]
  | cons x xs ih =>
    intro b
    by_cases hx : x = '/'
    · cases b with
      | true => simpa [URLWrapper.collapseSlashesAux, hx] using ih true
      | false =>
        have he : URLWrapper.collapseSlashesAux false (x :: xs) =
            '/' :: URLWrapper.collapseSlashesAux true xs := by
          simp [URLWrapper.collapseSlashesAux, hx]
        rw [slashCollapsed, he, List.chain'_cons']
        refine ⟨?_, ih true⟩
        intro y hy
        exact fun hcon => collapseSlashesAux_head_true xs y hy hcon.2
    · have he : URLWrapper.collapseSlashesAux b (x :: xs) =
          x :: URLWrapper.collapseSlashesAux false xs := by
        simp [URLWrapper.collapseSlashesAux, hx]
      rw [slashCollapsed, he, List.chain'_cons']
      refine ⟨?_, ih false⟩
      exact fun y _ hcon => hx hcon.1

lemma collapseSlashes_collapsed (l : Str) : slashCollapsed (URLWrapper.collapseSlashes l) :=
  collapseSlashesAux_collapsed l false

lemma slashCollapsed_of_mid {l l₁ : Str} (h : slashCollapsed l) (hm : l₁ <:+: l) :
    slashCollapsed l₁ :=
  List.Chain'.infix h hm

lemma collapseSlashesAux_eq_self (l : Str) :
    ∀ b, slashCollapsed l → (b = true → ∀ c, l.head? = some c → c ≠ '/') →
      URLWrapper.collapseSlashesAux b l = l := by
  induction l with
  | nil => intro b _ _; rfl
  | cons x xs ih =>
    intro b hcol hb
    rw [slashCollapsed, List.chain'_cons'] at hcol
    by_cases hx : x = '/'
    · cases b with
      | true => exact absurd hx (hb rfl x rfl)
      | false =>
        have he : URLWrapper.collapseSlashesAux false (x :: xs) =
            '/' :: URLWrapper.collapseSlashesAux true xs := by
          simp [URLWrapper.collapseSlashesAux, hx]
        rw [he, hx]
        rw [ih true hcol.2 (fun _ c hc => fun hcon => hcol.1 c hc ⟨hx, hcon⟩)]
    · have he : URLWrapper.collapseSlashesAux b (x :: xs) =
          x :: URLWrapper.collapseSlashesAux false xs := by
        simp [URLWrapper.collapseSlashesAux, hx]
      rw [he, ih false hcol.2 (fun hcon => by cases hcon)]

lemma collapseSlashes_eq_self (l : Str) (h : slashCollapsed l) :
    URLWrapper.collapseSlashes l = l :=
  collapseSlashesAux_eq_self l false h (fun hcon => by cases hcon)

/-- Every `;` in the string is followed (not necessarily immediately) by a
`/` — the condition under which `_splitparams` finds no parameters. -/
def semiOk : Str → Bool
  | [] => true
  | c :: rest => (if c = ';' then rest.contains '/' else true) && semiOk rest

lemma semiOk_cons_iff (c : Char) (rest : Str) :
    semiOk (c :: rest) = true ↔
      (c = ';' → rest.contains '/' = true) ∧ semiOk rest = true := by
  rw [semiOk, Bool.and_eq_true]
  by_cases hc : c = ';'
  · rw [if_pos hc]
    exact ⟨fun h => ⟨fun _ => h.1, h.2⟩, fun h => ⟨h.1 hc, h.2⟩⟩
  · rw [if_neg hc]
    exact ⟨fun h => ⟨fun hcon => absurd hcon hc, h.2⟩, fun h => ⟨rfl, h.2⟩⟩

lemma semiOk_of_no_semi (l : Str) (h : ∀ c ∈ l, c ≠ ';') : semiOk l = true := by
  induction l with
  | nil => rfl
  | cons x xs ih =>
    rw [semiOk_cons_iff]
    exact ⟨fun hcon => absurd hcon (h x (by simp)),
      ih (fun c hc => h c (by simp [hc]))⟩

lemma semiOk_suffix {l₁ l₂ : Str} (h : l₁ <:+ l₂) (hs : semiOk l₂ = true) :
    semiOk l₁ = true := by
  obtain ⟨t, ht⟩ := h
  subst ht
  induction t with
  | nil => exact hs
  | cons x xs ih =>
    rw [List.cons_append, semiOk_cons_iff] at hs
    exact ih hs.2

lemma semiOk_append_of (x a : Str) (hx : x.getLast? = some '/')
    (ha : ∀ c ∈ a, c ≠ ';') : semiOk (x ++ a) = true := by
  induction x with
  | nil => simp at hx
  | cons c x' ih =>
    rw [List.cons_append, semiOk_cons_iff]
    cases x' with
    | nil =>
      simp only [List.getLast?_singleton, Option.some.injEq] at hx
      refine ⟨fun hcon => ?_, by simpa using semiOk_of_no_semi a ha⟩
      rw [hcon] at hx
      exact absurd hx (by decide)
    | cons y ys =>
      have hx2 : (y :: ys).getLast? = some '/' := by
        rw [List.getLast?_cons_cons] at hx
        exact hx
      refine ⟨fun _ => ?_, ih hx2⟩
      have hmem : ('/' : Char) ∈ (y :: ys) ++ a :=
        List.mem_append_left a (List.mem_of_getLast?_eq_some hx2)
      rw [List.contains_eq_any_beq, List.any_eq_true]
      exact ⟨'/', hmem, by simp⟩

lemma semiOk_no_slash_no_semi (l : Str) (hs : semiOk l = true)
    (hn : ∀ c ∈ l, c ≠ '/') : ∀ c ∈ l, c ≠ ';' := by
  induction l with
  | nil => simp
  | cons x xs ih =>
    rw [semiOk_cons_iff] at hs
    intro c hc
    simp only [List.mem_cons] at hc
    rcases hc with hc | hc
    · subst hc
      intro hcon
      have h2 := hs.1 hcon
      rw [List.contains_eq_any_beq, List.any_eq_true] at h2
      obtain ⟨d, hd, hdeq⟩ := h2
      rw [beq_iff_eq] at hdeq
      subst hdeq
      exact hn _ (by simp [hd]) rfl
    · exact ih hs.2 (fun d hd => hn d (by simp [hd])) c hc

lemma semiOk_append_right_of_no (y t : Str) (h : semiOk (y ++ t) = true)
    (ht : ∀ c ∈ t, c ≠ '/' ∧ c ≠ ';') : semiOk y = true := by
  induction y with
  | nil => rfl
  | cons c y' ih =>
    rw [List.cons_append, semiOk_cons_iff] at h
    rw [semiOk_cons_iff]
    refine ⟨?_, ih h.2⟩
    intro hc
    have h1 := h.1 hc
    rw [List.contains_eq_any_beq, List.any_eq_true] at h1
    obtain ⟨d, hd, hdeq⟩ := h1
    rw [beq_iff_eq] at hdeq
    subst hdeq
    simp only [List.mem_append] at hd
    rcases hd with hd | hd
    · rw [List.contains_eq_any_beq, List.any_eq_true]
      exact ⟨'/', hd, by simp⟩
    · exact absurd rfl (ht _ hd).1

lemma pyIsSpace_facts (c : Char) (h : pyIsSpace c = true) : c ≠ '/' ∧ c ≠ ';' := by
  rw [pyIsSpace] at h
  simp only [Bool.or_eq_true, decide_eq_true_eq] at h
  rcases h with ((((h | h) | h) | h) | h) | h <;> rw [h] <;> exact ⟨by decide, by decide⟩

lemma pyRstripP_decomp (p : Char → Bool) (l : Str) :
    ∃ t, l = pyRstripP p l ++ t ∧ ∀ c ∈ t, p c = true := by
  refine ⟨(l.reverse.takeWhile p).reverse, ?_, ?_⟩
  · rw [pyRstripP]
    rw [← List.reverse_append, List.takeWhile_append_dropWhile, List.reverse_reverse]
  · intro c hc
    rw [List.mem_reverse] at hc
    exact List.mem_takeWhile_imp hc

lemma semiOk_pyStrip (l : Str) (h : semiOk l = true) : semiOk (pyStrip l) = true := by
  rw [pyStrip, pyStripP]
  have h1 : semiOk (pyLstripP pyIsSpace l) = true :=
    semiOk_suffix (by rw [pyLstripP]; exact List.dropWhile_suffix pyIsSpace) h
  obtain ⟨t, ht, htp⟩ := pyRstripP_decomp pyIsSpace (pyLstripP pyIsSpace l)
  rw [ht] at h1
  exact semiOk_append_right_of_no _ t h1 (fun c hc => pyIsSpace_facts c (htp c hc))

lemma mem_slash_collapseSlashesAux_false (l : Str) (h : ('/' : Char) ∈ l) :
    ('/' : Char) ∈ URLWrapper.collapseSlashesAux false l := by
  induction l with
  | nil => simp at h
  | cons c rest ih =>
    by_cases hc : c = '/'
    · rw [URLWrapper.collapseSlashesAux, if_pos hc]
      simp
    · rw [URLWrapper.collapseSlashesAux, if_neg hc]
      simp only [List.mem_cons] at h
      rcases h with h | h
      · exact absurd h.symm hc
      · simp [ih h]

lemma semiOk_collapseSlashesAux (l : Str) :
    ∀ b, semiOk l = true → semiOk (URLWrapper.collapseSlashesAux b l) = true := by
  induction l with
  | nil => intro b _; rfl
  | cons c rest ih =>
    intro b h
    rw [semiOk_cons_iff] at h
    by_cases hc : c = '/'
    · rw [URLWrapper.collapseSlashesAux, if_pos hc]
      cases b with
      | true => exact ih true h.2
      | false =>
        simp only [Bool.false_eq_true, if_false]
        rw [semiOk_cons_iff]
        exact ⟨fun hcon => absurd hcon (by decide), ih true h.2⟩
    · rw [URLWrapper.collapseSlashesAux, if_neg hc]
      rw [semiOk_cons_iff]
      refine ⟨?_, ih false h.2⟩
      intro hsemi
      have hsl := h.1 hsemi
      rw [List.contains_eq_any_beq, List.any_eq_true] at hsl
      obtain ⟨d, hd, hdeq⟩ := hsl
      rw [beq_iff_eq] at hdeq
      subst hdeq
      have := mem_slash_collapseSlashesAux_false rest hd
      rw [List.contains_eq_any_beq, List.any_eq_true]
      exact ⟨'/', this, by simp⟩

lemma semiOk_collapseSlashes (l : Str) (h : semiOk l = true) :
    semiOk (URLWrapper.collapseSlashes l) = true :=
  semiOk_collapseSlashesAux l false h

lemma mem_contains (l : Str) (a : Char) : l.contains a = true ↔ a ∈ l := by
  rw [List.contains_eq_any_beq, List.any_eq_true]
  constructor
  · rintro ⟨d, hd, hdeq⟩
    rw [beq_iff_eq] at hdeq
    exact hdeq ▸ hd
  · intro h; exact ⟨a, h, by simp⟩

lemma no_mem_of_contains_eq_false (l : Str) (a : Char) (h : l.contains a = false) :
    ∀ c ∈ l, c ≠ a := by
  intro c hc hcon
  subst hcon
  rw [(mem_contains l c).mpr hc] at h
  cases h

lemma splitFirst_fst_no_sep (sep : Char) (l : Str) :
    ∀ c ∈ (splitFirst sep l).1, c ≠ sep := by
  cases hs : splitOnce sep l with
  | some ab =>
    simp only [splitFirst, hs]
    exact (splitOnce_some_eq sep l ab.1 ab.2 (by rw [hs])).2
  | none =>
    simp only [splitFirst, hs]
    exact splitOnce_none_no_sep sep l hs

lemma splitFirst_fst_subset (sep : Char) (l : Str) :
    ∀ c ∈ (splitFirst sep l).1, c ∈ l := by
  cases hs : splitOnce sep l with
  | some ab =>
    simp only [splitFirst, hs]
    intro c hc
    rw [(splitOnce_some_eq sep l ab.1 ab.2 (by rw [hs])).1]
    exact List.mem_append_left _ hc
  | none =>
    simp only [splitFirst, hs]
    exact fun c hc => hc

lemma reverse_takeWhile_suffix (q : Char → Bool) (l : Str) :
    (l.reverse.takeWhile q).reverse <:+ l := by
  have h1 : l.reverse.takeWhile q <+: l.reverse := List.takeWhile_prefix q
  simpa using List.reverse_suffix.mpr h1

lemma splitAtLastSlash_spec (p : Str) :
    (splitAtLastSlash p).1 ++ (splitAtLastSlash p).2 = p ∧
    (∀ c ∈ (splitAtLastSlash p).2, c ≠ '/') ∧
    (p.contains '/' = true → (splitAtLastSlash p).1.getLast? = some '/') := by
  rw [splitAtLastSlash]
  simp only []
  generalize hA : List.takeWhile (fun c => decide (c ≠ '/')) p.reverse = A0
  obtain ⟨t, ht⟩ : A0.reverse <:+ p := by
    rw [← hA]
    exact reverse_takeWhile_suffix _ p
  have hlt : p.length - A0.length = t.length := by
    rw [← ht]
    simp
  have htake : p.take (p.length - A0.length) = t := by
    rw [hlt, ← ht]
    exact List.take_left t A0.reverse
  refine ⟨?_, ?_, ?_⟩
  · rw [htake]
    exact ht
  · intro c hc
    rw [List.mem_reverse, ← hA] at hc
    simpa using List.mem_takeWhile_imp hc
  · intro hcon
    rw [htake]
    have h2 : A0 ++ t.reverse = p.reverse := by
      rw [← ht]
      simp
    have h3 : A0 ++ List.dropWhile (fun c => decide (c ≠ '/')) p.reverse = p.reverse := by
      rw [← hA]
      exact List.takeWhile_append_dropWhile _ _
    have htr : t.reverse = List.dropWhile (fun c => decide (c ≠ '/')) p.reverse :=
      List.append_cancel_left (h2.trans h3.symm)
    cases hD : List.dropWhile (fun c => decide (c ≠ '/')) p.reverse with
    | nil =>
      exfalso
      have hAp : A0 = p.reverse := by
        rw [← h3, hD, List.append_nil]
      have hmem : ('/' : Char) ∈ p.reverse := by
        rw [List.mem_reverse]
        exact (mem_contains p '/').mp hcon
      rw [← hAp, ← hA] at hmem
      simpa using List.mem_takeWhile_imp hmem
    | cons d rest =>
      have hd := head_dropWhile_not (fun c => decide (c ≠ '/')) p.reverse d (by rw [hD]; rfl)
      simp only [decide_eq_false_iff_not, not_not] at hd
      have hteq : t = (d :: rest).reverse := by
        rw [← hD, ← htr, List.reverse_reverse]
      rw [hteq, List.getLast?_reverse]
      simp [hd]

lemma splitparamsM_of_semiOk (p : Str) (hs : semiOk p = true)
    (hc : p.contains '/' = true) : splitparamsM p = (p, []) := by
  obtain ⟨heq, hno, _⟩ := splitAtLastSlash_spec p
  have hsuf : (splitAtLastSlash p).2 <:+ p := ⟨(splitAtLastSlash p).1, heq⟩
  have hsem2 := semiOk_suffix hsuf hs
  have hnosemi := semiOk_no_slash_no_semi _ hsem2 hno
  simp only [splitparamsM, hc, if_true, splitOnce_eq_none ';' _ hnosemi]

lemma urlsplitM_ok_path_shape (u scheme netloc path0 query fragment : Str)
    (h : urlsplitM u = .ok (scheme, netloc, path0, query, fragment)) :
    ∃ m, path0 = (splitFirst '?' (splitFirst '#' m).1).1 := by
  simp only [urlsplitM] at h
  by_cases h2 : (splitScheme u).2.take 2 = [ '/', '/']
  · rw [if_pos h2] at h
    split at h
    · cases h
    · simp only [Except.ok.injEq, Prod.mk.injEq] at h
      exact ⟨_, h.2.2.1.symm⟩
  · rw [if_neg h2] at h
    split at h
    · cases h
    · simp only [Except.ok.injEq, Prod.mk.injEq] at h
      exact ⟨_, h.2.2.1.symm⟩

lemma urlparseM_ok_path_facts (s : Str) (pr0 : ParseResult)
    (h : urlparseM s = .ok pr0) :
    semiOk pr0.path = true ∧ ∀ c ∈ pr0.path, c ≠ '#' ∧ c ≠ '?' := by
  rw [urlparseM] at h
  simp only [bind, Except.bind] at h
  cases hsp : urlsplitM s with
  | error e => rw [hsp] at h; cases h
  | ok tup =>
    rw [hsp] at h
    obtain ⟨scheme, netloc, path0, query, fragment⟩ := tup
    simp only [Except.ok.injEq] at h
    have hpath : pr0.path =
        (if path0.contains ';' then splitparamsM path0 else (path0, [])).1 := by
      rw [← h]
    obtain ⟨m, hp0⟩ := urlsplitM_ok_path_shape s scheme netloc path0 query fragment hsp
    have hp0q : ∀ c ∈ path0, c ≠ '?' := by
      rw [hp0]; exact splitFirst_fst_no_sep '?' _
    have hp0h : ∀ c ∈ path0, c ≠ '#' := by
      rw [hp0]
      intro c hc
      exact splitFirst_fst_no_sep '#' _ c (splitFirst_fst_subset '?' _ c hc)
    by_cases hsemi : path0.contains ';'
    · rw [hpath, if_pos hsemi]
      by_cases hsl : path0.contains '/'
      · obtain ⟨heq, hno, hlast⟩ := splitAtLastSlash_spec path0
        cases hso : splitOnce ';' (splitAtLastSlash path0).2 with
        | some ab =>
          have hab := splitOnce_some_eq ';' _ ab.1 ab.2 (by rw [hso])
          simp only [splitparamsM, hsl, if_true, hso]
          have hsub1 : ∀ c ∈ (splitAtLastSlash path0).1 ++ ab.1, c ∈ path0 := by
            intro c hc
            rw [List.mem_append] at hc
            rw [← heq, List.mem_append]
            rcases hc with hc | hc
            · exact Or.inl hc
            · rw [hab.1, List.mem_append]
              exact Or.inr (Or.inl hc)
          refine ⟨semiOk_append_of _ _ (hlast hsl) hab.2, ?_⟩
          exact fun c hc => ⟨hp0h c (hsub1 c hc), hp0q c (hsub1 c hc)⟩
        | none =>
          simp only [splitparamsM, hsl, if_true, hso]
          refine ⟨?_, fun c hc => ⟨hp0h c hc, hp0q c hc⟩⟩
          rw [← heq]
          exact semiOk_append_of _ _ (hlast hsl) (splitOnce_none_no_sep ';' _ hso)
      · cases hso : splitOnce ';' path0 with
        | some ab =>
          have hab := splitOnce_some_eq ';' _ ab.1 ab.2 (by rw [hso])
          simp only [splitparamsM, hsl, if_false, hso]
          have hsub : ∀ c ∈ ab.1, c ∈ path0 := by
            intro c hc
            rw [hab.1, List.mem_append]
            exact Or.inl hc
          exact ⟨semiOk_of_no_semi _ hab.2,
            fun c hc => ⟨hp0h c (hsub c hc), hp0q c (hsub c hc)⟩⟩
        | none =>
          exfalso
          have hm := (mem_contains path0 ';').mp hsemi
          exact splitOnce_none_no_sep ';' path0 hso ';' hm rfl
    · rw [hpath, if_neg hsemi]
      refine ⟨?_, fun c hc => ⟨hp0h c hc, hp0q c hc⟩⟩
      exact semiOk_of_no_semi path0
        (no_mem_of_contains_eq_false path0 ';' (by simpa using hsemi))

lemma filterMap_qsl_enc_filter (pairs : List (Str × Str)) :
    ((pairs.map fun kv => quotePlus kv.1 ++ '=' :: quotePlus kv.2).filterMap
      fun nv =>
        if nv = [] then none
        else
          match splitOnce '=' nv with
          | none => none
          | some (n, v) =>
            if v = [] then none else some (unquotePlus n, unquotePlus v)) =
      pairs.filter (fun kv => !kv.2.isEmpty) := by
  induction pairs with
  | nil => rfl
  | cons kv rest ih =>
    rw [List.map_cons, List.filterMap_cons]
    have h2 : splitOnce '=' (quotePlus kv.1 ++ '=' :: quotePlus kv.2)
        = some (quotePlus kv.1, quotePlus kv.2) :=
      splitOnce_append_sep '=' _ _ (fun c hc => (quotePlus_ne_sep kv.1 c hc).2)
    by_cases hv : kv.2 = []
    · have h3 : quotePlus kv.2 = [] := by rw [hv]; rfl
      simp only [h2,
        if_neg (show ¬ (quotePlus kv.1 ++ '=' :: quotePlus kv.2) = [] by simp),
        if_pos h3]
      rw [ih, List.filter_cons_of_neg (by simp [hv])]
    · have h3 : ¬ quotePlus kv.2 = [] := fun h =>
        hv ((quotePlus_eq_nil_iff kv.2).mp h)
      simp only [h2, if_neg h3,
        if_neg (show ¬ (quotePlus kv.1 ++ '=' :: quotePlus kv.2) = [] by simp)]
      rw [unquotePlus_quotePlus, unquotePlus_quotePlus, ih,
        List.filter_cons_of_pos (by simp [hv])]

/-- What `parse_qsl` recovers from an `urlencode` output: exactly the pairs
with a non-empty raw value (`keep_blank_values=False` drops the others). -/
lemma parseQsl_urlencode_filter (pairs : List (Str × Str)) (hne : pairs ≠ []) :
    parseQsl (urlencode pairs) = pairs.filter (fun kv => !kv.2.isEmpty) := by
  rw [parseQsl, urlencode]
  rw [splitOnChar_joinSep '&' _ (by simpa using hne) ?hns]
  case hns =>
    intro e he c hc
    simp only [List.mem_map] at he
    obtain ⟨kv, hkv, he⟩ := he
    subst he
    simp only [List.mem_append, List.mem_cons] at hc
    rcases hc with hc | hc | hc
    · exact (quotePlus_ne_sep kv.1 c hc).1
    · rw [hc]; decide
    · exact (quotePlus_ne_sep kv.2 c hc).1
  exact filterMap_qsl_enc_filter pairs

lemma validateUrl_ok_inv (pr : ParseResult) (url : Str)
    (h : URLWrapper.validateUrl pr url = .ok ()) :
    (pr.scheme = "http".toList ∨ pr.scheme = "https".toList) ∧
    URLWrapper.hostnameBasicCheck pr.netloc = true ∧
    pr.netloc.contains '.' = true ∧
    pyStartsWith "/".toList pr.path = true := by
  rw [URLWrapper.validateUrl] at h
  split at h
  · cases h
  · split at h
    · cases h
    · split at h
      · cases h
      · split at h
        · cases h
        · split at h
          · cases h
          · split at h
            · cases h
            · split at h
              · cases h
              · rename_i h1 h2 h3 h4 h5 h6 h7
                refine ⟨?_, ?_, ?_, ?_⟩
                · rcases not_and_or.mp h2 with hx | hx
                  · exact Or.inl (not_not.mp hx)
                  · exact Or.inr (not_not.mp hx)
                · by_contra hc
                  rw [Bool.not_eq_true] at hc
                  exact h3 (by rw [hc]; simp)
                · by_contra hc
                  rw [Bool.not_eq_true] at hc
                  exact h3 (by rw [hc]; simp)
                · by_contra hc
                  rw [Bool.not_eq_true] at hc
                  exact h7 (by rw [hc]; simp)

lemma canonicalizeParsedUrl_fixpoint (pr : ParseResult)
    (hscheme : pr.scheme = "http".toList ∨ pr.scheme = "https".toList)
    (hnetc : ∀ d ∈ pr.netloc, hostChar d)
    (hnh : pr.netloc.head? ≠ some '.')
    (hnl : pr.netloc.getLast? ≠ some '.')
    (hpath1 : slashCollapsed pr.path)
    (hpath2 : noEdgeWs pr.path = true)
    (hq : ∃ pairs, pr.query = urlencode pairs)
    (hqcanon : ∀ kv ∈ parseQsl pr.query,
        pyStrip kv.1 = kv.1 ∧ pyStrip kv.2 = kv.2 ∧
        pyStartsWith "utm_".toList (pyLower kv.1) = false ∧
        pyLower kv.1 ≠ "fbclid".toList)
    (hqfix : urlencode (parseQsl pr.query) = pr.query)
    (hparams : pr.params = []) (hfrag : pr.fragment = []) :
    URLWrapper.canonicalizeParsedUrl pr = pr := by
  obtain ⟨pairs0, hqe⟩ := hq
  have hqchar : ∀ d ∈ pr.query, queryChar d := by
    rw [hqe]; exact urlencode_queryChar pairs0
  have hqnows : pyStrip pr.query = pr.query :=
    pyStripP_eq_self_of_all _ _ (fun c hc => (queryChar_facts c (hqchar c hc)).1)
  have hn1 : pyStrip pr.netloc = pr.netloc :=
    pyStripP_eq_self_of_all _ _ (fun d hd => (hostChar_facts d (hnetc d hd)).1)
  have hn2 : pyLower pr.netloc = pr.netloc :=
    pyLower_eq_self_of _ (fun d hd => (hostChar_facts d (hnetc d hd)).2.1)
  have hn3 : pyStripChars [ '.'] pr.netloc = pr.netloc := by
    rw [pyStripChars]
    refine pyStripP_eq_self _ _ ?_ ?_
    · intro c hc
      have hne : c ≠ '.' := fun he => hnh (by rw [hc, he])
      simp [List.contains_eq_any_beq, hne]
    · intro c hc
      have hne : c ≠ '.' := fun he => hnl (by rw [hc, he])
      simp [List.contains_eq_any_beq, hne]
  have hsch : pyLower (pyStrip pr.scheme) = pr.scheme := by
    rcases hscheme with h | h <;> rw [h] <;> decide
  have hp : pyStrip (URLWrapper.collapseSlashes pr.path) = pr.path := by
    rw [collapseSlashes_eq_self pr.path hpath1, pyStrip_eq_self pr.path hpath2]
  have hrm : URLWrapper.removeUselessQueryStringParams pr.query = pr.query := by
    rw [URLWrapper.removeUselessQueryStringParams]
    have hmap : ∀ kv ∈ parseQsl pr.query,
        (fun kv : Str × Str =>
          let k := pyStrip kv.1
          if pyStartsWith "utm_".toList (pyLower k) || pyLower k = "fbclid".toList
          then none
          else some (k, pyStrip kv.2)) kv = some kv := by
      intro kv hkv
      obtain ⟨hk, hv, hu, hf⟩ := hqcanon kv hkv
      have hf2 : ¬ pyLower kv.1 = ['f', 'b', 'c', 'l', 'i', 'd'] := hf
      simp only [hk, hv, hu, Bool.false_or]
      simp [hf2]
    rw [List.filterMap_congr hmap, List.filterMap_some]
    exact hqfix
  cases pr with
  | mk scheme netloc path params query fragment =>
    simp only [URLWrapper.canonicalizeParsedUrl, ParseResult.mk.injEq]
    refine ⟨hsch, ?_, hp, hparams.symm, ?_, hfrag.symm⟩
    · rw [hn1, hn2, hn3]
      exact hn1
    · rw [hqnows, hrm]
      exact hqnows

set_option maxHeartbeats 2000000 in
lemma URLWrapper.make_ok_inv (s : Str) (w : URLWrapperResult)
    (h : URLWrapper.make s = .ok w) :
    ∃ pr0, urlparseM s = .ok pr0 ∧
      w.parsedUrl = URLWrapper.canonicalizeParsedUrl pr0 ∧
      w.url = pyStrip (ParseResult.geturl w.parsedUrl) ∧
      w.canonicalUrl = pyStrip (URLWrapper.generateCanonicalUrl w.parsedUrl) ∧
      URLWrapper.checkUrlLength w.url = .ok () ∧
      URLWrapper.validateUrl w.parsedUrl w.url = .ok () ∧
      URLWrapper.validateWikipediaUrl w.parsedUrl.netloc = .ok () := by
  rw [URLWrapper.make] at h
  cases h1 : URLWrapper.checkUrlLength s with
  | error e => rw [h1] at h; simp only [bind, Except.bind] at h; cases h
  | ok u1 =>
    rw [h1] at h
    simp only [bind, Except.bind] at h
    cases h2 : urlparseM s with
    | error e => rw [h2] at h; simp only [] at h; cases h
    | ok pr0 =>
      rw [h2] at h
      simp only [] at h
      cases h3 : URLWrapper.checkUrlLength
          (pyStrip (ParseResult.geturl (URLWrapper.canonicalizeParsedUrl pr0))) with
      | error e => rw [h3] at h; simp only [] at h; cases h
      | ok u3 =>
        rw [h3] at h
        simp only [] at h
        cases h4 : URLWrapper.validateUrl (URLWrapper.canonicalizeParsedUrl pr0)
            (pyStrip (ParseResult.geturl (URLWrapper.canonicalizeParsedUrl pr0))) with
        | error e => rw [h4] at h; simp only [] at h; cases h
        | ok u4 =>
          rw [h4] at h
          simp only [] at h
          cases h5 : URLWrapper.validateWikipediaUrl
              (URLWrapper.canonicalizeParsedUrl pr0).netloc with
          | error e => rw [h5] at h; simp only [] at h; cases h
          | ok u5 =>
            rw [h5] at h
            simp only [Except.ok.injEq] at h
            subst h
            exact ⟨pr0, rfl, rfl, rfl, rfl, h3, h4, h5⟩

lemma contains_eq_false_of_no (l : Str) (a : Char) (h : ∀ c ∈ l, c ≠ a) :
    l.contains a = false := by
  cases hb : l.contains a with
  | false => rfl
  | true => exact absurd rfl (h a ((mem_contains l a).mp hb))

lemma mem_of_head?_eq_some {l : Str} {c : Char} (h : l.head? = some c) : c ∈ l := by
  cases l with
  | nil => cases h
  | cons a t =>
    simp only [List.head?_cons, Option.some.injEq] at h
    subst h
    exact List.mem_cons_self a t

lemma geturl_canonical_eq (pr : ParseResult)
    (hnet_ne : pr.netloc ≠ [])
    (hpath_head : pr.path.head? = some '/')
    (hscheme_ne : pr.scheme ≠ [])
    (hparams : pr.params = []) (hfrag : pr.fragment = []) :
    ParseResult.geturl pr =
      pr.scheme ++ ':' :: ('/' :: '/' :: ((pr.netloc ++ pr.path) ++
        (if pr.query = [] then [] else '?' :: pr.query))) := by
  have hpne : pr.path ≠ [] := by
    cases hp : pr.path with
    | nil => rw [hp] at hpath_head; cases hpath_head
    | cons a l => simp
  have htake1 : pr.path.take 1 = [ '/'] := by
    cases hp : pr.path with
    | nil => rw [hp] at hpath_head; cases hpath_head
    | cons a l =>
      rw [hp] at hpath_head
      simp only [List.head?_cons, Option.some.injEq] at hpath_head
      simp [hpath_head]
  by_cases hqe : pr.query = []
  · simp [ParseResult.geturl, urlunsplitM, hparams, hfrag, hqe, hnet_ne, hpne,
      hscheme_ne, htake1]
  · simp [ParseResult.geturl, urlunsplitM, hparams, hfrag, hqe, hnet_ne, hpne,
      hscheme_ne, htake1]

lemma splitScheme_http (scheme R : Str)
    (hs : scheme = "http".toList ∨ scheme = "https".toList) :
    splitScheme (scheme ++ ':' :: R) = (scheme, R) := by
  have h1 : ∀ c ∈ scheme, (fun c => decide (c ≠ ':')) c = true := by
    rcases hs with h | h <;> rw [h] <;> decide
  have htw : (scheme ++ ':' :: R).takeWhile (fun c => c ≠ ':') = scheme :=
    takeWhile_append_all _ scheme (':' :: R) h1 (by
      intro c hc
      simp only [List.head?_cons, Option.some.injEq] at hc
      subst hc
      simp)
  rw [splitScheme]
  simp only [htw]
  rw [if_neg (by simp [List.length_append])]
  rcases hs with h | h <;> subst h
  · show (if (isAsciiAlpha 'h' && ("http".toList).all schemeChars) = true then
        (pyLower "http".toList, ("http".toList ++ ':' :: R).drop (("http".toList).length + 1))
      else ([], "http".toList ++ ':' :: R)) = ("http".toList, R)
    rw [if_pos (by decide), Prod.mk.injEq]
    exact ⟨by decide, rfl⟩
  · show (if (isAsciiAlpha 'h' && ("https".toList).all schemeChars) = true then
        (pyLower "https".toList, ("https".toList ++ ':' :: R).drop (("https".toList).length + 1))
      else ([], "https".toList ++ ':' :: R)) = ("https".toList, R)
    rw [if_pos (by decide), Prod.mk.injEq]
    exact ⟨by decide, rfl⟩

lemma urlparseM_geturl (pr : ParseResult)
    (hscheme : pr.scheme = "http".toList ∨ pr.scheme = "https".toList)
    (hnetc : ∀ d ∈ pr.netloc, hostChar d)
    (hnet_ne : pr.netloc ≠ [])
    (hpath_head : pr.path.head? = some '/')
    (hpath_no : ∀ c ∈ pr.path, c ≠ '#' ∧ c ≠ '?')
    (hpath_semi : semiOk pr.path = true)
    (hq : ∀ d ∈ pr.query, queryChar d)
    (hparams : pr.params = []) (hfrag : pr.fragment = []) :
    urlparseM (ParseResult.geturl pr) = .ok pr := by
  cases pr with
  | mk ps pn pp0 ppar pq pf =>
  dsimp only at hscheme hnetc hnet_ne hpath_head hpath_no hpath_semi hq hparams hfrag ⊢
  subst hparams
  subst hfrag
  have hscheme_ne : ps ≠ [] := by
    rcases hscheme with h | h <;> rw [h] <;> decide
  rw [geturl_canonical_eq _ hnet_ne hpath_head hscheme_ne rfl rfl]
  dsimp only
  set qtail := (if pq = [] then ([] : Str) else '?' :: pq) with hqt
  have hss := splitScheme_http ps ('/' :: '/' :: ((pn ++ pp0) ++ qtail)) hscheme
  have hnetpred : ∀ c ∈ pn,
      (fun c => decide (c ≠ '/') && decide (c ≠ '?') && decide (c ≠ '#')) c = true := by
    intro c hc
    have hf := hostChar_facts c (hnetc c hc)
    simp [hf.2.2.1, hf.2.2.2.1, hf.2.2.2.2.1]
  have hpq_head : ∀ c, ((pp0 ++ qtail).head? = some c) →
      (fun c => decide (c ≠ '/') && decide (c ≠ '?') && decide (c ≠ '#')) c = false := by
    intro c hc
    cases hp : pp0 with
    | nil => rw [hp] at hpath_head; cases hpath_head
    | cons a t =>
      rw [hp] at hpath_head hc
      simp only [List.head?_cons, Option.some.injEq] at hpath_head
      rw [List.cons_append] at hc
      simp only [List.head?_cons, Option.some.injEq] at hc
      rw [← hc, hpath_head]
      decide
  have hsplitNet : splitNetloc ((pn ++ pp0) ++ qtail) = (pn, pp0 ++ qtail) := by
    rw [splitNetloc, List.append_assoc]
    rw [takeWhile_append_all _ pn (pp0 ++ qtail) hnetpred hpq_head,
      dropWhile_append_all _ pn (pp0 ++ qtail) hnetpred hpq_head]
  have hbr1 : pn.contains '[' = false :=
    contains_eq_false_of_no _ _ (fun c hc => (hostChar_facts c (hnetc c hc)).2.2.2.2.2.1)
  have hbr2 : pn.contains ']' = false :=
    contains_eq_false_of_no _ _ (fun c hc => (hostChar_facts c (hnetc c hc)).2.2.2.2.2.2.1)
  have hnohash : ∀ c ∈ pp0 ++ qtail, c ≠ '#' := by
    intro c hc
    rw [List.mem_append] at hc
    rcases hc with hc | hc
    · exact (hpath_no c hc).1
    · rw [hqt] at hc
      by_cases hqe : pq = []
      · rw [if_pos hqe] at hc; simp at hc
      · rw [if_neg hqe] at hc
        simp only [List.mem_cons] at hc
        rcases hc with hc | hc
        · rw [hc]; decide
        · exact (queryChar_facts c (hq c hc)).2.1
  have hsf1 : splitFirst '#' (pp0 ++ qtail) = (pp0 ++ qtail, []) := by
    simp only [splitFirst, splitOnce_eq_none '#' _ hnohash]
  have hnoq_path : ∀ c ∈ pp0, c ≠ '?' := fun c hc => (hpath_no c hc).2
  have hsf2 : splitFirst '?' (pp0 ++ qtail) = (pp0, pq) := by
    by_cases hqe : pq = []
    · rw [hqt, if_pos hqe, List.append_nil]
      simp only [splitFirst, splitOnce_eq_none '?' _ hnoq_path]
      rw [hqe]
    · rw [hqt, if_neg hqe]
      simp only [splitFirst, splitOnce_append_sep '?' pp0 pq hnoq_path]
  have hurlsplit : urlsplitM (ps ++ ':' :: ('/' :: '/' :: ((pn ++ pp0) ++ qtail)))
      = .ok (ps, pn, pp0, pq, []) := by
    simp only [urlsplitM, hss]
    rw [if_pos (show ('/' :: '/' :: ((pn ++ pp0) ++ qtail)).take 2 = [ '/', '/'] from rfl)]
    simp only [List.drop_succ_cons, List.drop_zero]
    rw [hsplitNet]
    simp only [hbr1, hbr2, Bool.false_and, Bool.and_false, Bool.false_or, Bool.not_false,
      Bool.true_and, Bool.and_true]
    rw [if_neg (by simp [hbr1, hbr2])]
    simp only [hsf1, hsf2]
  rw [urlparseM]
  simp only [bind, Except.bind, hurlsplit]
  have hslash : pp0.contains '/' = true :=
    (mem_contains _ _).mpr (mem_of_head?_eq_some hpath_head)
  by_cases hsemi : pp0.contains ';'
  · simp only [hsemi, if_true, splitparamsM_of_semiOk pp0 hpath_semi hslash]
  · simp only [hsemi, Bool.false_eq_true, if_false]

lemma head?_of_startsWith_slash (l : Str) (h : pyStartsWith "/".toList l = true) :
    l.head? = some '/' := by
  rw [pyStartsWith, decide_eq_true_eq] at h
  cases l with
  | nil => simp at h
  | cons a t =>
    have h2 : a :: t.take 0 = [ '/'] := h
    simp only [List.take_zero, List.cons.injEq] at h2
    simp [h2.1]

lemma noEdgeWs_geturl (pr : ParseResult)
    (hscheme : pr.scheme = "http".toList ∨ pr.scheme = "https".toList)
    (hnet_ne : pr.netloc ≠ [])
    (hpath_head : pr.path.head? = some '/')
    (hpath2 : noEdgeWs pr.path = true)
    (hq : ∀ d ∈ pr.query, queryChar d)
    (hparams : pr.params = []) (hfrag : pr.fragment = []) :
    noEdgeWs (ParseResult.geturl pr) = true := by
  have hscheme_ne : pr.scheme ≠ [] := by
    rcases hscheme with h | h <;> rw [h] <;> decide
  rw [geturl_canonical_eq pr hnet_ne hpath_head hscheme_ne hparams hfrag]
  rw [noEdgeWs, Bool.and_eq_true]
  have hpne : pr.path ≠ [] := by
    cases hp : pr.path with
    | nil => rw [hp] at hpath_head; cases hpath_head
    | cons a t => simp
  constructor
  · have hpre : pr.scheme <+: pr.scheme ++ ':' :: ('/' :: '/' :: ((pr.netloc ++ pr.path) ++
        (if pr.query = [] then [] else '?' :: pr.query))) := ⟨_, rfl⟩
    rw [head?_of_isPre hpre hscheme_ne]
    rcases hscheme with h | h <;> rw [h] <;> decide
  · rw [noEdgeWs, Bool.and_eq_true] at hpath2
    by_cases hqe : pr.query = []
    · rw [if_pos hqe, List.append_nil]
      have hshape : pr.scheme ++ ':' :: ('/' :: '/' :: (pr.netloc ++ pr.path)) =
          (pr.scheme ++ ':' :: '/' :: '/' :: pr.netloc) ++ pr.path := by
        simp
      rw [hshape, List.getLast?_append_of_ne_nil _ hpne]
      exact hpath2.2
    · rw [if_neg hqe]
      have hshape : pr.scheme ++ ':' :: ('/' :: '/' :: ((pr.netloc ++ pr.path) ++ '?' :: pr.query)) =
          (pr.scheme ++ ':' :: '/' :: '/' :: ((pr.netloc ++ pr.path) ++ [ '?'])) ++ pr.query := by
        simp
      rw [hshape, List.getLast?_append_of_ne_nil _ hqe]
      cases hlast : pr.query.getLast? with
      | none => rfl
      | some c =>
        have hc := hq c (List.mem_of_getLast?_eq_some hlast)
        have hns := (queryChar_facts c hc).1
        simp [hns]

/-- C3 (amended): URL canonicalization is idempotent on every successfully
wrapped URL whose canonical netloc has no leading or trailing dot and whose
canonical query re-encodes to itself (in particular no query parameter whose
stripped value is empty): wrapping `w.url` again succeeds and returns the
same parsed URL, `url` and `canonical_url`.  The extra hypotheses are
exactly the two failure families of the unrestricted claim. -/
theorem url_canonicalization_c3 (s : Str) (w : URLWrapperResult)
    (hmk : URLWrapper.make s = .ok w)
    (hnh : w.parsedUrl.netloc.head? ≠ some '.')
    (hnl : w.parsedUrl.netloc.getLast? ≠ some '.')
    (hqfix : urlencode (parseQsl w.parsedUrl.query) = w.parsedUrl.query) :
    URLWrapper.make w.url = .ok w := by
  obtain ⟨pr0, hparse, hw_pr, hw_url, hw_canon, hlen2, hval, hwiki⟩ :=
    URLWrapper.make_ok_inv s w hmk
  obtain ⟨hscheme, hbasic, hdot, hstart⟩ := validateUrl_ok_inv _ _ hval
  have hnetc : ∀ d ∈ w.parsedUrl.netloc, hostChar d := hostnameBasicCheck_chars _ hbasic
  have hnet_ne : w.parsedUrl.netloc ≠ [] := fun hcon =>
    absurd (hcon ▸ hbasic) (by decide)
  have hpath_head := head?_of_startsWith_slash _ hstart
  have hcanpath : w.parsedUrl.path = pyStrip (URLWrapper.collapseSlashes pr0.path) := by
    rw [hw_pr]; rfl
  have hpfacts := urlparseM_ok_path_facts s pr0 hparse
  have hsub : ∀ c ∈ w.parsedUrl.path, c ∈ pr0.path := by
    rw [hcanpath]
    exact fun c hc => mem_collapseSlashesAux false pr0.path c (pyStripP_subset _ _ c hc)
  have hpath_no : ∀ c ∈ w.parsedUrl.path, c ≠ '#' ∧ c ≠ '?' := fun c hc =>
    hpfacts.2 c (hsub c hc)
  have hpath_semi : semiOk w.parsedUrl.path = true := by
    rw [hcanpath]
    exact semiOk_pyStrip _ (semiOk_collapseSlashes _ hpfacts.1)
  have hpath1 : slashCollapsed w.parsedUrl.path := by
    rw [hcanpath]
    exact slashCollapsed_of_mid (collapseSlashes_collapsed pr0.path) (pyStripP_isMidOf _ _)
  have hpath2 : noEdgeWs w.parsedUrl.path = true := by
    rw [hcanpath]; exact noEdgeWs_pyStrip _
  have hparams : w.parsedUrl.params = [] := by rw [hw_pr]; rfl
  have hfrag : w.parsedUrl.fragment = [] := by rw [hw_pr]; rfl
  have hcanq : w.parsedUrl.query =
      pyStrip (urlencode ((parseQsl (pyStrip pr0.query)).filterMap
        (fun kv : Str × Str =>
          let k := pyStrip kv.1
          if pyStartsWith "utm_".toList (pyLower k) || pyLower k = "fbclid".toList
          then none else some (k, pyStrip kv.2)))) := by
    rw [hw_pr]; rfl
  have hstrip_enc : ∀ (l : List (Str × Str)), pyStrip (urlencode l) = urlencode l :=
    fun l => pyStripP_eq_self_of_all _ _
      (fun c hc => (queryChar_facts c (urlencode_queryChar l c hc)).1)
  have hqe : w.parsedUrl.query = urlencode ((parseQsl (pyStrip pr0.query)).filterMap
      (fun kv : Str × Str =>
        let k := pyStrip kv.1
        if pyStartsWith "utm_".toList (pyLower k) || pyLower k = "fbclid".toList
        then none else some (k, pyStrip kv.2))) := by
    rw [hcanq, hstrip_enc]
  have hqchar : ∀ d ∈ w.parsedUrl.query, queryChar d := by
    rw [hqe]; exact urlencode_queryChar _
  have hmemshape : ∀ kv ∈ ((parseQsl (pyStrip pr0.query)).filterMap
      (fun kv : Str × Str =>
        let k := pyStrip kv.1
        if pyStartsWith "utm_".toList (pyLower k) || pyLower k = "fbclid".toList
        then none else some (k, pyStrip kv.2))),
      pyStrip kv.1 = kv.1 ∧ pyStrip kv.2 = kv.2 ∧
      pyStartsWith "utm_".toList (pyLower kv.1) = false ∧
      pyLower kv.1 ≠ "fbclid".toList := by
    intro kv hkv
    rw [List.mem_filterMap] at hkv
    obtain ⟨kv0, _, hf⟩ := hkv
    dsimp only at hf
    by_cases hcond : (pyStartsWith "utm_".toList (pyLower (pyStrip kv0.1)) ||
        pyLower (pyStrip kv0.1) = "fbclid".toList) = true
    · rw [if_pos hcond] at hf
      cases hf
    · rw [if_neg hcond] at hf
      simp only [Option.some.injEq] at hf
      subst hf
      rw [Bool.or_eq_true, not_or] at hcond
      obtain ⟨h1, h2⟩ := hcond
      rw [Bool.not_eq_true] at h1
      simp only [decide_eq_true_eq] at h2
      exact ⟨pyStrip_idem _, pyStrip_idem _, h1, h2⟩
  have hqcanon : ∀ kv ∈ parseQsl w.parsedUrl.query,
      pyStrip kv.1 = kv.1 ∧ pyStrip kv.2 = kv.2 ∧
      pyStartsWith "utm_".toList (pyLower kv.1) = false ∧
      pyLower kv.1 ≠ "fbclid".toList := by
    rw [hqe]
    by_cases hne : ((parseQsl (pyStrip pr0.query)).filterMap
      (fun kv : Str × Str =>
        let k := pyStrip kv.1
        if pyStartsWith "utm_".toList (pyLower k) || pyLower k = "fbclid".toList
        then none else some (k, pyStrip kv.2))) = []
    · rw [hne]
      intro kv hkv
      rw [show parseQsl (urlencode []) = [] from rfl] at hkv
      cases hkv
    · rw [parseQsl_urlencode_filter _ hne]
      intro kv hkv
      exact hmemshape kv (List.mem_of_mem_filter hkv)
  have hfix : URLWrapper.canonicalizeParsedUrl w.parsedUrl = w.parsedUrl :=
    canonicalizeParsedUrl_fixpoint _ hscheme hnetc hnh hnl hpath1 hpath2
      ⟨_, hqe⟩ hqcanon hqfix hparams hfrag
  have hreparse : urlparseM (ParseResult.geturl w.parsedUrl) = .ok w.parsedUrl :=
    urlparseM_geturl _ hscheme hnetc hnet_ne hpath_head hpath_no hpath_semi
      hqchar hparams hfrag
  have hnoedge : noEdgeWs (ParseResult.geturl w.parsedUrl) = true :=
    noEdgeWs_geturl _ hscheme hnet_ne hpath_head hpath2 hqchar hparams hfrag
  have hstripid : pyStrip (ParseResult.geturl w.parsedUrl) = ParseResult.geturl w.parsedUrl :=
    pyStrip_eq_self _ hnoedge
  have hurl_eq : w.url = ParseResult.geturl w.parsedUrl := by rw [hw_url, hstripid]
  rw [hurl_eq] at hlen2 hval ⊢
  rw [URLWrapper.make]
  rw [hlen2]
  simp only [bind, Except.bind]
  rw [hreparse]
  simp only [hfix, hstripid]
  rw [hlen2]
  rw [hval]
  rw [hwiki]
  cases w with
  | mk wp wu wc =>
  dsimp only at hurl_eq hw_canon ⊢
  simp only [Except.ok.injEq, URLWrapperResult.mk.injEq]
  exact ⟨trivial, hurl_eq.symm, hw_canon.symm⟩

/-- C3 counterexample: canonicalization is not idempotent.  The URL
`http://x.com/?k=+` wraps successfully with `url = "http://x.com/?k="`
(the value `+` decodes to a space and is stripped to nothing), but wrapping
that output drops the now-blank parameter entirely and returns the distinct
`url = "http://x.com/"`. -/
theorem url_canonicalization_c3_counterexample :
    (URLWrapper.make "http://x.com/?k=+".toList).toOption.map (fun w => w.url) =
      some "http://x.com/?k=".toList ∧
    (URLWrapper.make "http://x.com/?k=".toList).toOption.map (fun w => w.url) =
      some "http://x.com/".toList ∧
    ("http://x.com/".toList : Str) ≠ "http://x.com/?k=".toList :=
  ⟨by decide, by decide, by decide⟩

theorem url_canonicalization_c3_witness :
    ∃ w, URLWrapper.make "https://Example.COM/a//b/?utm_source=x&q=1#frag".toList =
        .ok w ∧ URLWrapper.make w.url = .ok w := by
  have hm : URLWrapper.make "https://Example.COM/a//b/?utm_source=x&q=1#frag".toList =
      .ok ⟨⟨"https".toList, "example.com".toList, "/a/b/".toList, [], "q=1".toList, []⟩,
        "https://example.com/a/b/?q=1".toList, "example.com/a/b/?q=1".toList⟩ := by
    decide
  exact ⟨_, hm, url_canonicalization_c3 _ _ hm (by decide) (by decide) (by decide)⟩

/-- C2 counterexample: the claimed input is rejected, not canonicalized.
The port suffix `:443` stays in the netloc after `urlparse` (the model keeps
`hostname` and port together in `netloc`, and the code validates
`parsed_url.netloc`), so the netloc `example.com:443` fails the
`^[0-9a-z.-]+$` hostname check and `URLWrapper.__init__` raises
`URLWrapperException` instead of succeeding. -/
theorem url_canonicalization_c2_counterexample :
    URLWrapper.make "https://Example.COM:443/a//b/?utm_source=x&q=1#frag".toList =
      .error URLWrapperErr.invalidNetloc := by
  decide

/-- C2 (amended): the port-bearing input
`https://Example.COM:443/a//b/?utm_source=x&q=1#frag` fails construction
with the invalid-netloc error (the `:` of the port fails `^[0-9a-z.-]+$`);
the portless variant succeeds and yields exactly the claimed components
`url = "https://example.com/a/b/?q=1"`,
`canonical_url = "example.com/a/b/?q=1"`. -/
theorem url_canonicalization_c2 :
    URLWrapper.make "https://Example.COM:443/a//b/?utm_source=x&q=1#frag".toList =
      .error URLWrapperErr.invalidNetloc ∧
    (URLWrapper.make "https://Example.COM/a//b/?utm_source=x&q=1#frag".toList).toOption.map
      (fun w => (w.url, w.canonicalUrl)) =
      some ("https://example.com/a/b/?q=1".toList, "example.com/a/b/?q=1".toList) :=
  ⟨by decide, by decide⟩
